import Mathlib

/-!
Verification of the paper2chunk core pipeline: `TreeBuilder.build_tree`
(paper2chunk/core/tree_builder.py) and `DualThresholdChunker`
(paper2chunk/core/semantic_chunker_new.py), over a shallow embedding of the
Python source.  Text is modelled as `List Char` (a Python `str` is a sequence
of code points); Python `int` is `Int`; Python `Optional[T]` is `Option T`.
Impure metadata fields (`chunk_id` from `uuid.uuid4()`, `created_at` from the
clock) are omitted from the embedding; no verified property mentions them.
-/

namespace Paper2Chunk

/-- Python strings as lists of code points. -/
abbrev Str := List Char

/-- The `'\n\n'` separator used by `'\n\n'.join(...)` in the chunker. -/
def sepNN : Str := ['\n', '\n']

/-- The markdown heading marker `"## "` used by `_collect_content`. -/
def hhMark : Str := ['#', '#', ' ']

/-- Python `'\n\n'.join(parts)` (for an arbitrary separator). -/
def joinSep (sep : Str) : List Str → Str
  | [] => []
  | [x] => x
  | x :: y :: xs => x ++ sep ++ joinSep sep (y :: xs)

/-- Python `s.strip()` restricted to ASCII whitespace: drop leading and
trailing whitespace characters. -/
def stripStr (s : Str) : Str :=
  ((s.dropWhile Char.isWhitespace).reverse.dropWhile Char.isWhitespace).reverse

/-- Python `sorted(...)` on a list of ints (insertion sort; on integers the
result is the unique ascending reordering, so stability is irrelevant). -/
def sortInt (l : List Int) : List Int := l.insertionSort (· ≤ ·)

/-- Python `sorted(list(set(l)))`: the ascending list of the distinct
elements of `l`. -/
def sortedDedup (l : List Int) : List Int := sortInt l.dedup

/-- Python slice `s[a : a + n]` for `a, n : Nat`. -/
def sliceStr (s : Str) (a n : Nat) : Str := (s.drop a).take n

/-! ## Data model (paper2chunk/models.py) -/

/-- `Block` (models.py): a flat fragment from the parser.  `bbox` and the
opaque `metadata` dict play no role in the two core modules and are omitted. -/
structure Block where
  id : Str
  type : Str
  text : Str
  level : Option Int
  page : Int
deriving DecidableEq, Repr

/-- `TreeNode` (models.py): a node of the document tree.  Fields in source
order: `id`, `type`, `title`, `level`, `content`, `page_numbers`,
`children`. -/
inductive TreeNode : Type where
  | mk : Str → Str → Option Str → Option Int → Str → List Int → List TreeNode → TreeNode

def TreeNode.id : TreeNode → Str
  | .mk i _ _ _ _ _ _ => i

def TreeNode.type : TreeNode → Str
  | .mk _ ty _ _ _ _ _ => ty

def TreeNode.title : TreeNode → Option Str
  | .mk _ _ ti _ _ _ _ => ti

def TreeNode.level : TreeNode → Option Int
  | .mk _ _ _ lv _ _ _ => lv

def TreeNode.content : TreeNode → Str
  | .mk _ _ _ _ co _ _ => co

def TreeNode.page_numbers : TreeNode → List Int
  | .mk _ _ _ _ _ pg _ => pg

def TreeNode.children : TreeNode → List TreeNode
  | .mk _ _ _ _ _ _ ch => ch

mutual
/-- `TreeNode.get_total_tokens` (models.py): `len(self.content) // 4` plus the
total of all children, by mutual recursion with its list form. -/
def get_total_tokens : TreeNode → Nat
  | .mk _ _ _ _ co _ ch => co.length / 4 + get_total_tokens_list ch

def get_total_tokens_list : List TreeNode → Nat
  | [] => 0
  | c :: cs => get_total_tokens c + get_total_tokens_list cs
end

/-- `ChunkMetadata` (models.py) without the impure `chunk_id`/`created_at`. -/
structure ChunkMetadata where
  document_title : Str
  section_hierarchy : List Str
  page_numbers : List Int
  publish_date : Option Str
  chunk_index : Nat
  total_chunks : Nat
deriving DecidableEq, Repr

/-- `Chunk` (models.py); `enhanced_content`, `entities`, `keywords` keep their
defaults throughout the core and are omitted. -/
structure Chunk where
  content : Str
  metadata : ChunkMetadata
deriving DecidableEq, Repr

/-! ## Configuration (paper2chunk/config.py) -/

/-- `ChunkingConfig` (config.py): all five numeric fields plus
`preserve_structure`. -/
structure ChunkingConfig where
  soft_limit : Int
  hard_limit : Int
  max_chunk_size : Int
  min_chunk_size : Int
  overlap_size : Int
  preserve_structure : Bool
deriving DecidableEq, Repr

/-- Pydantic validation of `ChunkingConfig` at construction: the only
declared constraints are `ge=1` on `max_chunk_size` and `min_chunk_size` and
`ge=0` on `overlap_size`; `soft_limit` and `hard_limit` carry no constraint.
Returns `none` exactly when pydantic would raise a `ValidationError`. -/
def mkChunkingConfig (soft hard maxc minc overlap : Int) (preserve : Bool) :
    Option ChunkingConfig :=
  if 1 ≤ maxc ∧ 1 ≤ minc ∧ 0 ≤ overlap then
    some ⟨soft, hard, maxc, minc, overlap, preserve⟩
  else
    none

/-- `DualThresholdChunker.__init__` state: the configuration and whether an
LLM client was successfully initialized (`self.llm_client`). -/
structure DualThresholdChunker where
  config : ChunkingConfig
  llm_client : Bool
deriving DecidableEq, Repr

/-- `DualThresholdChunker.__init__` (semantic_chunker_new.py lines 47-62):
stores the config unconditionally; no threshold validation is performed.
`llm_client` presence is passed in (it depends on the external LLM SDK). -/
def DualThresholdChunker.init (config : ChunkingConfig) (llm_client : Bool) :
    DualThresholdChunker :=
  ⟨config, llm_client⟩

/-! ## TreeBuilder (paper2chunk/core/tree_builder.py)

The Python builder mutates nodes that are already linked into the tree
(children are appended to a node after it went onto the stack).  The
embedding represents each node still open on the stack as a `Frame` holding
its fields and the children collected so far; a frame is closed into a
`TreeNode` when it is popped, and the remaining stack is collapsed at the
end.  The stack is kept head-first (head = Python `stack[-1]`). -/

/-- Truthiness/value of an `Optional[int]` level: Python `level` is truthy
iff it is neither `None` nor `0`, and comparisons use its value. -/
def levelVal (lv : Option Int) : Int := lv.getD 0

/-- A tree node still open on the builder stack: its fields plus the
children appended so far. -/
structure Frame where
  id : Str
  type : Str
  title : Option Str
  level : Option Int
  content : Str
  page_numbers : List Int
  children : List TreeNode

/-- Close a frame into the `TreeNode` it has been building. -/
def Frame.close (f : Frame) : TreeNode :=
  .mk f.id f.type f.title f.level f.content f.page_numbers f.children

/-- `parent.children.append(node)` on an open frame. -/
def Frame.addChild (f : Frame) (c : TreeNode) : Frame :=
  { f with children := f.children ++ [c] }

/-- The root created at the top of `build_tree`: `TreeNode(id="root",
type="root", title="Document Root", level=0)`. -/
def rootFrame : Frame :=
  ⟨"root".toList, "root".toList, some "Document Root".toList, some 0, [], [], []⟩

/-- `TreeBuilder._create_section_node`: a section with the block's text as
title, the block's level, and `page_numbers=[block.page]`. -/
def sectionFrame (b : Block) : Frame :=
  ⟨b.id, "section".toList, some b.text, b.level, [], [b.page], []⟩

/-- `TreeBuilder._create_content_node`: a content node carrying the block's
text and `page_numbers=[block.page]`. -/
def contentNode (b : Block) : TreeNode :=
  .mk b.id "content".toList none none b.text [b.page] []

/-- The pop loop of `build_tree` (tree_builder.py line 59): while the stack
has more than one element and its top has a truthy level `≥ L`, pop the top
and attach it to the node below.  `f` is the current top, the list the rest
of the stack. -/
def popWhile (L : Int) (f : Frame) : List Frame → List Frame
  | [] => [f]
  | g :: rest =>
    if levelVal f.level ≠ 0 ∧ L ≤ levelVal f.level then
      popWhile L (g.addChild f.close) rest
    else
      f :: g :: rest

/-- One iteration of the block loop in `build_tree` (lines 53-75): headers
with a truthy level pop the stack and push a new section frame; everything
else becomes a content node appended to the stack top. -/
def insertBlock (stack : List Frame) (b : Block) : List Frame :=
  if b.type = "header".toList ∧ levelVal b.level ≠ 0 then
    sectionFrame b ::
      (match stack with
       | [] => []
       | f :: rest => popWhile (levelVal b.level) f rest)
  else
    match stack with
    | [] => []
    | f :: rest => f.addChild (contentNode b) :: rest

/-- Collapse the final stack: each still-open frame is a child already
attached (by mutation, in Python) to the frame below it. -/
def collapse (f : Frame) : List Frame → TreeNode
  | [] => f.close
  | g :: rest => collapse (g.addChild f.close) rest

/-- `TreeBuilder.build_tree` (tree_builder.py lines 30-80). -/
def build_tree (blocks : List Block) : TreeNode :=
  match blocks.foldl insertBlock [rootFrame] with
  | [] => rootFrame.close
  | f :: rest => collapse f rest

/-! ## DualThresholdChunker (paper2chunk/core/semantic_chunker_new.py) -/

/-- The chunker's call context: the stored configuration, the module-level
`count_tokens` (tiktoken when importable, else `len(text) // 4`; pluggable
and environment-dependent, so modelled as a parameter), the optional LLM
segmenter (`none` models `self.llm_client` being `None`; `some f` models a
client whose parsed JSON response for a given text is `f text`, where the
inner `none` models an API error, unparsable JSON, or a non-list response),
and the `chunk_tree` arguments `document_title` / `publish_date`. -/
structure ChunkerCtx where
  cfg : ChunkingConfig
  tc : Str → Nat
  seg : Option (Str → Option (List Int))
  document_title : Str
  publish_date : Option Str

/-- `DualThresholdChunker._create_chunk` (lines 239-269), minus the impure
`chunk_id`/`created_at`: indices are 0 until the final renumbering pass. -/
def create_chunk (ctx : ChunkerCtx) (content : Str) (hier : List Str)
    (pages : List Int) : Chunk :=
  ⟨content, ⟨ctx.document_title, hier, pages, ctx.publish_date, 0, 0⟩⟩

/-- Fuel-driven enumeration of the windows `s[0:k], s[k:2k], ...`; fuel
`≥ s.length` and `k ≥ 1` make it total.  Models
`for i in range(0, len(content), chunk_size)` with slice `content[i:i+k]`. -/
def windowsGo (k : Nat) : Nat → Str → List Str
  | _, [] => []
  | 0, _ => []
  | fuel + 1, c :: s => (c :: s).take k :: windowsGo k fuel ((c :: s).drop k)

/-- The windows of size `k` over `s` (`k ≤ 0` yields no windows, as a Python
`range` with a negative step would; a zero step would raise, which no
reachable configuration of the verified theorems produces). -/
def windows (k : Int) (s : Str) : List Str :=
  if k ≤ 0 then [] else windowsGo k.toNat s.length s

/-- `DualThresholdChunker._simple_split` (lines 376-412): fixed windows of
`hard_limit * 4` characters; each window is stripped and kept only if
non-empty. -/
def simple_split (ctx : ChunkerCtx) (content : Str) (hier : List Str)
    (pages : List Int) : List Chunk :=
  (windows (ctx.cfg.hard_limit * 4) content).filterMap fun w =>
    let chunk_content := stripStr w
    if chunk_content ≠ [] then some (create_chunk ctx chunk_content hier pages)
    else none

/-- The parsed-response half of `_llm_split_large_content` (lines 337-370):
validate only the point count, then sort, clamp, extend with missing
endpoints, slice, strip and keep the non-empty substrings. -/
def llm_split_points (ctx : ChunkerCtx) (content : Str) (hier : List Str)
    (pages : List Int) (split_points : List Int) : List Chunk :=
  if split_points.length < 2 then simple_split ctx content hier pages
  else
    let sp0 := sortInt split_points
    let sp1 := sp0.map fun p => max 0 (min p (content.length : Int))
    let sp2 := if sp1.head? ≠ some 0 then 0 :: sp1 else sp1
    let sp3 :=
      if sp2.getLast? ≠ some (content.length : Int) then
        sp2 ++ [(content.length : Int)]
      else sp2
    let subs := (sp3.zip sp3.tail).map fun ab =>
      stripStr (sliceStr content ab.1.toNat (ab.2 - ab.1).toNat)
    let chunks := (subs.filter (· ≠ [])).map fun sc =>
      create_chunk ctx sc hier pages
    if chunks = [] then simple_split ctx content hier pages else chunks

/-- `DualThresholdChunker._llm_split_large_content` (lines 271-374): absent
client, a failing/malformed response, or fewer than two split points fall
back to `_simple_split`; otherwise the points are sorted, clamped into
`[0, len(content)]`, extended with the endpoints when missing, and the
resulting substrings (stripped, empties dropped) become chunks, falling back
once more if every substring was empty. -/
def llm_split (ctx : ChunkerCtx) (content : Str) (hier : List Str)
    (pages : List Int) : List Chunk :=
  match ctx.seg with
  | none => simple_split ctx content hier pages
  | some f =>
    match f content with
    | none => simple_split ctx content hier pages
    | some split_points => llm_split_points ctx content hier pages split_points

mutual
/-- `DualThresholdChunker._collect_content` (lines 212-237): heading part
`"## " + title` for sections with a truthy title, then the node's own
content if non-empty, then each child's non-empty collected content, all
joined with `"\n\n"`. -/
def collect_content : TreeNode → Str
  | .mk _ ty ti _ co _ ch =>
    let headParts : List Str :=
      match ti with
      | some t => if ty = "section".toList ∧ t ≠ [] then [hhMark ++ t] else []
      | none => []
    joinSep sepNN (headParts ++ (if co ≠ [] then [co] else []) ++ collect_children ch)

/-- The child loop of `_collect_content` (lines 232-235). -/
def collect_children : List TreeNode → List Str
  | [] => []
  | c :: cs =>
    let s := collect_content c
    (if s ≠ [] then [s] else []) ++ collect_children cs
end

/-- Lines 123-125 of `_recursive_dfs`: a section node with a truthy title
extends the running `section_hierarchy` path by that title. -/
def hierExtend (n : TreeNode) (hier : List Str) : List Str :=
  match n.title with
  | some t => if n.type = "section".toList ∧ t ≠ [] then hier ++ [t] else hier
  | none => hier

mutual
/-- `DualThresholdChunker._recursive_dfs` (lines 112-151), returning the
chunks it appends to `self.chunks`, in emission order. -/
def recursive_dfs (ctx : ChunkerCtx) : TreeNode → List Str → List Chunk
  | node@(.mk _ _ _ _ _ _ ch), hier0 =>
    let hier := hierExtend node hier0
    let total := get_total_tokens node
    if (total : Int) < ctx.cfg.soft_limit then
      let content := collect_content node
      if stripStr content ≠ [] then
        [create_chunk ctx content hier node.page_numbers]
      else []
    else if ch.isEmpty then
      let content := collect_content node
      if (total : Int) > ctx.cfg.hard_limit then
        llm_split ctx content hier node.page_numbers
      else if stripStr content ≠ [] then
        [create_chunk ctx content hier node.page_numbers]
      else []
    else
      process_children ctx ch hier [] []

/-- `DualThresholdChunker._process_children` (lines 153-210), with the loop
state (`accumulated_content`, `accumulated_pages`) as accumulator
arguments.  Pages are a Python `set`, flushed as `sorted(list(...))`,
modelled by concatenation plus `sortedDedup`. -/
def process_children (ctx : ChunkerCtx) :
    List TreeNode → List Str → List Str → List Int → List Chunk
  | [], hier, accC, accP =>
    if accC ≠ [] then
      let accumulated_text := joinSep sepNN accC
      if stripStr accumulated_text ≠ [] then
        [create_chunk ctx accumulated_text hier (sortedDedup accP)]
      else []
    else []
  | child :: rest, hier, accC, accP =>
    if (get_total_tokens child : Int) < ctx.cfg.soft_limit then
      let accC' := accC ++ [collect_content child]
      let accP' := accP ++ child.page_numbers
      let accumulated_text := joinSep sepNN accC'
      if (ctx.tc accumulated_text : Int) ≥ ctx.cfg.soft_limit then
        create_chunk ctx accumulated_text hier (sortedDedup accP') ::
          process_children ctx rest hier [] []
      else
        process_children ctx rest hier accC' accP'
    else
      (if accC ≠ [] then
        [create_chunk ctx (joinSep sepNN accC) hier (sortedDedup accP)]
      else []) ++
      recursive_dfs ctx child hier ++
      process_children ctx rest hier [] []
end

/-- `DualThresholdChunker.chunk_tree` (lines 79-110): run the DFS from the
root with an empty hierarchy, then renumber `chunk_index`/`total_chunks`. -/
def chunk_tree (ctx : ChunkerCtx) (tree : TreeNode) : List Chunk :=
  let chunks := recursive_dfs ctx tree []
  chunks.enum.map fun ic =>
    { ic.2 with
      metadata :=
        { ic.2.metadata with chunk_index := ic.1, total_chunks := chunks.length } }

/-! ## Analysis definitions

Everything below is spec-side vocabulary used to state and settle the
claims; nothing here is part of the embedded program. -/

/-- The fallback branch of the module-level `count_tokens`
(semantic_chunker_new.py line 24): `len(text) // 4`; used as the concrete
token counter in witnesses. -/
def fallbackCounter : Str → Nat := fun s => s.length / 4

/-- Prepend a character to the first part of a split (helper for
`splitNN`). -/
def consHead (c : Char) : List Str → List Str
  | [] => [[c]]
  | p :: ps => (c :: p) :: ps

/-- Python `s.split("\n\n")`: cut at each leftmost, non-overlapping
occurrence of the blank-line separator. -/
def splitNN : Str → List Str
  | [] => [[]]
  | [c] => [[c]]
  | c :: d :: rest =>
    if c = '\n' ∧ d = '\n' then [] :: splitNN rest
    else consHead c (splitNN (d :: rest))

/-- Does the string contain the `"\n\n"` separator? -/
def hasNN : Str → Bool
  | [] => false
  | [_] => false
  | c :: d :: rest =>
    if c = '\n' ∧ d = '\n' then true else hasNN (d :: rest)

/-- Does the string end with a newline (which would merge with a following
`"\n\n"` separator)? -/
def endsNL (s : Str) : Bool := s.getLast? = some '\n'

/-- A split part is an injected heading line iff it starts with `"## "`. -/
def notHeading (p : Str) : Bool := decide (p.take 3 ≠ hhMark)

/-- The non-heading portions of one emitted chunk's content: split the
content at blank lines and drop the injected `"## "` heading lines. -/
def chunkBodies (c : Chunk) : List Str := (splitNN c.content).filter notHeading

mutual
/-- The content-block texts stored in a subtree, in depth-first (reading)
order; empty content fields (root/section nodes) contribute nothing. -/
def nodeTexts : TreeNode → List Str
  | .mk _ _ _ _ co _ ch => (if co ≠ [] then [co] else []) ++ nodeTextsList ch

/-- List form of `nodeTexts`. -/
def nodeTextsList : List TreeNode → List Str
  | [] => []
  | c :: cs => nodeTexts c ++ nodeTextsList cs
end

/-- A well-behaved content text: non-blank, free of the `"\n\n"` separator,
not ending in a newline, and not shaped like an injected heading line. -/
def goodText (s : Str) : Bool :=
  !hasNN s && !endsNL s && !(stripStr s).isEmpty && notHeading s

/-- A well-behaved section title: free of the separator and not ending in a
newline (so the heading line `"## " + title` splits back out intact). -/
def goodTitle (t : Str) : Bool := !hasNN t && !endsNL t

/-- Is a block routed to the content branch of `build_tree` (everything
that is not a header with a truthy level)? -/
def contentRouted (b : Block) : Bool :=
  !(decide (b.type = "header".toList ∧ levelVal b.level ≠ 0))

/-- A well-behaved input block: header-routed blocks carry a non-empty
well-behaved title, content-routed blocks a well-behaved text. -/
def blockGood (b : Block) : Bool :=
  if b.type = "header".toList ∧ levelVal b.level ≠ 0 then
    !b.text.isEmpty && goodTitle b.text
  else
    goodText b.text

mutual
/-- A well-behaved non-root tree node, as `build_tree` produces them from
well-behaved blocks: a section with a non-empty well-behaved title and no
own content, or a childless, title-less content node with well-behaved
content. -/
def goodSub : TreeNode → Bool
  | .mk _ ty ti _ co _ ch =>
    goodSubList ch &&
    ((decide (ty = "section".toList) && co.isEmpty &&
        (match ti with | some t => !t.isEmpty && goodTitle t | none => false)) ||
     (decide (ty = "content".toList) && goodText co && ch.isEmpty &&
        (match ti with | some _ => false | none => true)))

/-- List form of `goodSub`. -/
def goodSubList : List TreeNode → Bool
  | [] => true
  | c :: cs => goodSub c && goodSubList cs
end

/-- A well-behaved root: not a section (its title is never rendered), no
own content, well-behaved children. -/
def goodRoot : TreeNode → Bool
  | .mk _ ty _ _ co _ ch =>
    decide (ty ≠ "section".toList) && co.isEmpty && goodSubList ch

mutual
/-- No childless node of the subtree exceeds the hard limit, so the
splitting edge case (`_llm_split_large_content` / `_simple_split`) is never
taken. -/
def leafFit (cfg : ChunkingConfig) : TreeNode → Bool
  | n@(.mk _ _ _ _ _ _ ch) =>
    (if ch.isEmpty then decide ((get_total_tokens n : Int) ≤ cfg.hard_limit)
     else true) && leafFitList cfg ch

/-- List form of `leafFit`. -/
def leafFitList (cfg : ChunkingConfig) : List TreeNode → Bool
  | [] => true
  | c :: cs => leafFit cfg c && leafFitList cfg cs
end

mutual
/-- Hierarchy monotonicity at every node of a tree: each `section` child's
level exceeds its parent's level (`levelVal`: root's `level=0`, absent
levels count as 0). -/
def monoAt : TreeNode → Bool
  | .mk _ _ _ lv _ _ ch => monoAtList (levelVal lv) ch

/-- Children check of `monoAt` against the parent level `pl`. -/
def monoAtList (pl : Int) : List TreeNode → Bool
  | [] => true
  | c :: cs =>
    (decide (c.type ≠ "section".toList) || decide (pl < levelVal c.level)) &&
    monoAt c && monoAtList pl cs
end

mutual
/-- All pages stored anywhere in a subtree, in depth-first order. -/
def pagesAll : TreeNode → List Int
  | .mk _ _ _ _ _ pg ch => pg ++ pagesAllList ch

/-- List form of `pagesAll`. -/
def pagesAllList : List TreeNode → List Int
  | [] => []
  | c :: cs => pagesAll c ++ pagesAllList cs
end

/-- The union of the page numbers of a node and all its descendants, as the
sorted duplicate-free list the spec describes. -/
def pagesUnion (n : TreeNode) : List Int := sortedDedup (pagesAll n)

/-- The texts a frame will contribute to `nodeTexts` once closed. -/
def frameTexts (f : Frame) : List Str :=
  (if f.content ≠ [] then [f.content] else []) ++ nodeTextsList f.children

/-- The content texts held by a builder stack (head = top), in the
depth-first order of the tree it will collapse to: bottom frame first. -/
def stackTexts : List Frame → List Str
  | [] => []
  | f :: rest => stackTexts rest ++ frameTexts f

/-- `processChildrenSpecGo`: the child-merging loop as C6 words it
(amended): children are consumed in order with an accumulation buffer; a
child of size `< soft_limit` is appended to the buffer, which is flushed as
one chunk exactly when its accumulated size reaches `soft_limit`; a child
of size `≥ soft_limit` first causes any pending buffer to be flushed (even
under `soft_limit`) and is then processed by an independent recursive call;
after the last child the buffer is flushed when its text is non-blank. -/
def processChildrenSpecGo (ctx : ChunkerCtx) (hier : List Str) :
    List TreeNode → List Str → List Int → List Chunk
  | [], bufC, bufP =>
    if ¬ (stripStr (joinSep sepNN bufC)).isEmpty then
      [create_chunk ctx (joinSep sepNN bufC) hier (sortedDedup bufP)]
    else []
  | c :: cs, bufC, bufP =>
    if (get_total_tokens c : Int) < ctx.cfg.soft_limit then
      let bufC' := bufC ++ [collect_content c]
      let bufP' := bufP ++ c.page_numbers
      if (ctx.tc (joinSep sepNN bufC') : Int) ≥ ctx.cfg.soft_limit then
        create_chunk ctx (joinSep sepNN bufC') hier (sortedDedup bufP') ::
          processChildrenSpecGo ctx hier cs [] []
      else
        processChildrenSpecGo ctx hier cs bufC' bufP'
    else
      (if ¬ bufC.isEmpty then
        [create_chunk ctx (joinSep sepNN bufC) hier (sortedDedup bufP)]
      else []) ++
      recursive_dfs ctx c hier ++
      processChildrenSpecGo ctx hier cs [] []

/-- A well-behaved open section frame: section type, empty content, a
non-empty well-behaved title, and well-behaved collected children. -/
def goodFrameB (f : Frame) : Bool :=
  decide (f.type = "section".toList) && f.content.isEmpty &&
    (match f.title with | some t => !t.isEmpty && goodTitle t | none => false) &&
    goodSubList f.children

/-- A well-behaved bottom (root) frame: non-section type, empty content,
well-behaved collected children. -/
def goodBotB (f : Frame) : Bool :=
  decide (¬ f.type = "section".toList) && f.content.isEmpty && goodSubList f.children

/-- Well-behavedness of the whole builder stack (head = top): a
well-behaved bottom frame under well-behaved section frames. -/
def stackGood : List Frame → Prop
  | [] => False
  | [f] => goodBotB f = true
  | f :: g :: rest => goodFrameB f = true ∧ stackGood (g :: rest)

/-- Invariant of the builder stack (head = top): the bottom frame has level
0, every frame above it has level `≥ 1` and strictly above the level of the
frame below it, and every frame's collected children already satisfy
hierarchy monotonicity against that frame's level. -/
def stackInv : List Frame → Prop
  | [] => False
  | [f] => levelVal f.level = 0 ∧ monoAtList (levelVal f.level) f.children = true
  | f :: g :: rest =>
    1 ≤ levelVal f.level ∧ levelVal g.level < levelVal f.level ∧
    monoAtList (levelVal f.level) f.children = true ∧ stackInv (g :: rest)

/-- `processChildrenClaimGo`: the child-merging loop exactly as C6 states
it, differing from `processChildrenSpecGo` only in the final step: "after
the last child, any remaining non-empty buffer is flushed", i.e. the buffer
is flushed whenever it holds any pending item, blank or not. -/
def processChildrenClaimGo (ctx : ChunkerCtx) (hier : List Str) :
    List TreeNode → List Str → List Int → List Chunk
  | [], bufC, bufP =>
    if ¬ bufC.isEmpty then
      [create_chunk ctx (joinSep sepNN bufC) hier (sortedDedup bufP)]
    else []
  | c :: cs, bufC, bufP =>
    if (get_total_tokens c : Int) < ctx.cfg.soft_limit then
      let bufC' := bufC ++ [collect_content c]
      let bufP' := bufP ++ c.page_numbers
      if (ctx.tc (joinSep sepNN bufC') : Int) ≥ ctx.cfg.soft_limit then
        create_chunk ctx (joinSep sepNN bufC') hier (sortedDedup bufP') ::
          processChildrenClaimGo ctx hier cs [] []
      else
        processChildrenClaimGo ctx hier cs bufC' bufP'
    else
      (if ¬ bufC.isEmpty then
        [create_chunk ctx (joinSep sepNN bufC) hier (sortedDedup bufP)]
      else []) ++
      recursive_dfs ctx c hier ++
      processChildrenClaimGo ctx hier cs [] []

/-! ### Concrete example builders (used by witnesses and counterexamples) -/

/-- A concrete chunker context: limits `soft`/`hard`, legacy defaults, the
fallback token counter, no LLM client. -/
def exCtx (soft hard : Int) : ChunkerCtx :=
  ⟨⟨soft, hard, 1000, 100, 50, true⟩, fallbackCounter, none, "D".toList, none⟩

/-- A concrete content node. -/
def cNode (s : String) (pg : List Int) : TreeNode :=
  .mk "c".toList "content".toList none none s.toList pg []

/-- A concrete section node. -/
def sNode (t : String) (lv : Int) (pg : List Int) (ch : List TreeNode) : TreeNode :=
  .mk "s".toList "section".toList (some t.toList) (some lv) [] pg ch

/-- A concrete root node as `build_tree` creates it. -/
def rNode (ch : List TreeNode) : TreeNode :=
  .mk "root".toList "root".toList (some "Document Root".toList) (some 0) [] [] ch

/-- A concrete header block. -/
def hBlock (t : String) (lv : Int) (pg : Int) : Block :=
  ⟨"h".toList, "header".toList, t.toList, some lv, pg⟩

/-- A concrete text block. -/
def cBlock (t : String) (pg : Int) : Block :=
  ⟨"b".toList, "text".toList, t.toList, none, pg⟩

end Paper2Chunk

namespace Paper2Chunk

/-! ## Theorems -/

/-- C2 (amended): constructing a `ChunkingConfig` validates only the legacy
character-dimension fields (`max_chunk_size ≥ 1`, `min_chunk_size ≥ 1`,
`overlap_size ≥ 0`); `soft_limit` and `hard_limit` are not validated at all,
and `DualThresholdChunker.__init__` stores whatever limits the config
carries, so chunkers violating `0 < soft_limit < hard_limit` are
constructible without any error. -/
theorem claim_C2_amended (soft hard maxc minc overlap : Int) (p : Bool) :
    ((mkChunkingConfig soft hard maxc minc overlap p).isSome ↔
      1 ≤ maxc ∧ 1 ≤ minc ∧ 0 ≤ overlap) ∧
    (∀ llm cfg, mkChunkingConfig soft hard maxc minc overlap p = some cfg →
      (DualThresholdChunker.init cfg llm).config.soft_limit = soft ∧
      (DualThresholdChunker.init cfg llm).config.hard_limit = hard) := by
  constructor
  · unfold mkChunkingConfig
    split <;> simp_all
  · intro llm cfg h
    unfold mkChunkingConfig at h
    split at h
    · cases h
      exact ⟨rfl, rfl⟩
    · cases h

/-- C2 witness: a config with `soft_limit = hard_limit = 0` is successfully
constructed and its limits are stored unchanged. -/
theorem claim_C2_amended_witness :
    (mkChunkingConfig 0 0 1000 100 50 true).isSome ∧
    (DualThresholdChunker.init ⟨0, 0, 1000, 100, 50, true⟩ false).config.soft_limit = 0 := by
  have h := claim_C2_amended 0 0 1000 100 50 true
  exact ⟨h.1.mpr (by decide), (h.2 false ⟨0, 0, 1000, 100, 50, true⟩ (by decide)).1⟩

/-- C2 counterexample: the claim "construction fails unless
`0 < soft_limit < hard_limit`" is false — a config with
`soft_limit = 1000 ≥ hard_limit = 5` is constructed successfully. -/
theorem claim_C2_counterexample :
    mkChunkingConfig 1000 5 1000 100 50 true = some ⟨1000, 5, 1000, 100, 50, true⟩ ∧
    ¬ ((0:Int) < 1000 ∧ (1000:Int) < 5) := by decide

/-- C8 (confirmed): in every list returned by `chunk_tree`, the chunk at
position `i` has `chunk_index = i` and `total_chunks` equal to the list's
length. -/
theorem claim_C8 (ctx : ChunkerCtx) (tree : TreeNode) (i : Nat)
    (h : i < (chunk_tree ctx tree).length) :
    ((chunk_tree ctx tree).get ⟨i, h⟩).metadata.chunk_index = i ∧
    ((chunk_tree ctx tree).get ⟨i, h⟩).metadata.total_chunks =
      (chunk_tree ctx tree).length := by
  constructor
  · simp [chunk_tree, List.get_eq_getElem, List.getElem_map, List.getElem_enum]
  · simp [chunk_tree, List.get_eq_getElem, List.getElem_map, List.getElem_enum]

/-- C8 witness at a one-chunk tree. -/
theorem claim_C8_witness :
    0 < (chunk_tree (exCtx 8 20) (cNode "xxxx" [1])).length ∧
    ((chunk_tree (exCtx 8 20) (cNode "xxxx" [1])).get
        ⟨0, by decide⟩).metadata.chunk_index = 0 := by
  exact ⟨by decide, (claim_C8 (exCtx 8 20) (cNode "xxxx" [1]) 0 (by decide)).1⟩

/-- The base case of `_recursive_dfs` with non-blank rendered content
emits exactly one chunk: the whole rendered subtree, with the node's own
`page_numbers`. -/
theorem recursive_dfs_base (ctx : ChunkerCtx) (n : TreeNode) (hier : List Str)
    (hS : (get_total_tokens n : Int) < ctx.cfg.soft_limit)
    (hnb : stripStr (collect_content n) ≠ []) :
    recursive_dfs ctx n hier =
      [create_chunk ctx (collect_content n) (hierExtend n hier) n.page_numbers] := by
  cases n with
  | mk i ty ti lv co pg ch =>
    rw [recursive_dfs]
    simp [hS, hnb]

/-- The base case of `_recursive_dfs` with blank rendered content emits
nothing. -/
theorem recursive_dfs_base_blank (ctx : ChunkerCtx) (n : TreeNode) (hier : List Str)
    (hS : (get_total_tokens n : Int) < ctx.cfg.soft_limit)
    (hnb : stripStr (collect_content n) = []) :
    recursive_dfs ctx n hier = [] := by
  cases n with
  | mk i ty ti lv co pg ch =>
    rw [recursive_dfs]
    simp [hS, hnb]

/-- The moderate-oversize edge case of `_recursive_dfs`: a childless node
with `soft_limit ≤ size ≤ hard_limit` and non-blank content emits exactly
one unsplit chunk. -/
theorem recursive_dfs_edge_mid (ctx : ChunkerCtx) (n : TreeNode) (hier : List Str)
    (hch : n.children = [])
    (hS : ctx.cfg.soft_limit ≤ (get_total_tokens n : Int))
    (hH : (get_total_tokens n : Int) ≤ ctx.cfg.hard_limit)
    (hnb : stripStr (collect_content n) ≠ []) :
    recursive_dfs ctx n hier =
      [create_chunk ctx (collect_content n) (hierExtend n hier) n.page_numbers] := by
  cases n with
  | mk i ty ti lv co pg ch =>
    have hch' : ch = [] := hch
    subst hch'
    rw [recursive_dfs]
    simp [not_lt.mpr hS, not_lt.mpr hH, hnb]

/-- C9 (confirmed): blank-chunk suppression is not uniform.  A whitespace-
empty small child immediately followed by a large child makes the
pre-recursion flush emit a chunk with empty content (first conjunct), while
the same blank child in trailing position is suppressed by the end-of-
children flush (second conjunct). -/
theorem claim_C9 :
    (chunk_tree (exCtx 1 100) (rNode [cNode "" [], cNode "aaaa" []])).map Chunk.content
      = [[], "aaaa".toList] ∧
    (chunk_tree (exCtx 1 100) (rNode [cNode "aaaa" [], cNode "" []])).map Chunk.content
      = ["aaaa".toList] := by decide

/-- C3 (amended): when the base case applies and a chunk is emitted, the
chunk's `page_numbers` equal the node's own `page_numbers` field — for
built trees the single page of the node's originating block — not the union
of the pages of the node and its descendants. -/
theorem claim_C3_amended (ctx : ChunkerCtx) (n : TreeNode) (hier : List Str)
    (hS : (get_total_tokens n : Int) < ctx.cfg.soft_limit)
    (hnb : stripStr (collect_content n) ≠ []) :
    (recursive_dfs ctx n hier).map (fun c => c.metadata.page_numbers) =
      [n.page_numbers] := by
  rw [recursive_dfs_base ctx n hier hS hnb]
  rfl

/-- C3 witness: a section on page 1 with a child on page 2, small enough
for the base case; the emitted chunk carries `[1]`. -/
theorem claim_C3_amended_witness :
    ((recursive_dfs (exCtx 8 20) (sNode "A" 1 [1] [cNode "x" [2]]) []).map
        (fun c => c.metadata.page_numbers)) = [[1]] :=
  claim_C3_amended (exCtx 8 20) (sNode "A" 1 [1] [cNode "x" [2]]) []
    (by decide) (by decide)

/-- C3 counterexample: for the same tree the union of the node's and its
descendants' pages is `[1, 2]`, but the emitted chunk carries only `[1]` —
the claim's "union of the pages of the node and of all its descendants" is
false for the code. -/
theorem claim_C3_counterexample :
    (chunk_tree (exCtx 8 20) (sNode "A" 1 [1] [cNode "x" [2]])).map
        (fun c => c.metadata.page_numbers) = [[1]] ∧
    pagesUnion (sNode "A" 1 [1] [cNode "x" [2]]) = [1, 2] := by decide

/-- C7 (amended): a childless node with `soft_limit ≤ size ≤ hard_limit`
whose collected content is non-blank is emitted as exactly one unsplit
chunk, for every context — in particular for every segmenter, so the
splitting path can only be taken when `size > hard_limit`. -/
theorem claim_C7_amended (ctx : ChunkerCtx) (n : TreeNode) (hier : List Str)
    (hch : n.children = [])
    (hS : ctx.cfg.soft_limit ≤ (get_total_tokens n : Int))
    (hH : (get_total_tokens n : Int) ≤ ctx.cfg.hard_limit)
    (hnb : stripStr (collect_content n) ≠ []) :
    recursive_dfs ctx n hier =
      [create_chunk ctx (collect_content n) (hierExtend n hier) n.page_numbers] :=
  recursive_dfs_edge_mid ctx n hier hch hS hH hnb

/-- C7 witness: a childless content node of size exactly `hard_limit` is
emitted as one chunk. -/
theorem claim_C7_amended_witness :
    get_total_tokens (cNode "aaaaaaaa" [1]) = 2 ∧
    recursive_dfs (exCtx 1 2) (cNode "aaaaaaaa" [1]) [] =
      [create_chunk (exCtx 1 2) (collect_content (cNode "aaaaaaaa" [1])) []
        (cNode "aaaaaaaa" [1]).page_numbers] :=
  ⟨by decide,
   claim_C7_amended (exCtx 1 2) (cNode "aaaaaaaa" [1]) []
     rfl (by decide) (by decide) (by decide)⟩

/-- C7 counterexample: a childless whitespace-only node whose size lies in
`[soft_limit, hard_limit]` emits no chunk at all, refuting "emits that
node's content as exactly one chunk" as universally stated. -/
theorem claim_C7_counterexample :
    (1 : Int) ≤ (get_total_tokens (cNode "    " [1]) : Int) ∧
    (get_total_tokens (cNode "    " [1]) : Int) ≤ 2 ∧
    (cNode "    " [1]).children.length = 0 ∧
    chunk_tree (exCtx 1 2) (cNode "    " [1]) = [] := by decide

/-- `(x ++ rest)` joined on a separator starts with `x`. -/
theorem take_joinSep_head (sep : Str) (x : Str) (rest : List Str) :
    (joinSep sep (x :: rest)).take x.length = x := by
  cases rest with
  | nil => simp [joinSep]
  | cons y ys =>
    rw [joinSep, List.append_assoc]
    exact List.take_left x (sep ++ joinSep sep (y :: ys))

/-- The rendered content of a non-section node does not depend on its
title. -/
theorem collect_content_title_irrel (i ty : Str) (ti ti' : Option Str)
    (lv lv' : Option Int) (co : Str) (pg : List Int) (ch : List TreeNode)
    (hty : ty ≠ "section".toList) :
    collect_content (.mk i ty ti lv co pg ch) =
      collect_content (.mk i ty ti' lv' co pg ch) := by
  have hx : ∀ ti'' : Option Str,
      (match ti'' with
       | some t => if ty = "section".toList ∧ t ≠ [] then [hhMark ++ t] else []
       | none => ([] : List Str)) = [] := by
    intro ti''
    cases ti'' with
    | none => rfl
    | some t =>
      show (if ty = "section".toList ∧ t ≠ [] then [hhMark ++ t] else []) = []
      rw [if_neg]
      exact fun hc => hty hc.1
  show joinSep sepNN
      ((match ti with
        | some t => if ty = "section".toList ∧ t ≠ [] then [hhMark ++ t] else []
        | none => []) ++ (if co ≠ [] then [co] else []) ++ collect_children ch) =
    joinSep sepNN
      ((match ti' with
        | some t => if ty = "section".toList ∧ t ≠ [] then [hhMark ++ t] else []
        | none => []) ++ (if co ≠ [] then [co] else []) ++ collect_children ch)
  rw [hx ti, hx ti']

/-- C10 (confirmed): (1) the rendered content of a node is independent of
its `level`, so a level-1 and a level-3 section render identically; (2) a
section with a truthy title renders with the fixed `"## "` prefix followed
by the title; (3) the whole traversal output of a non-section node (the
root in particular) is independent of its title, so the root's title is
neither rendered into content nor added to any `section_hierarchy`. -/
theorem claim_C10 :
    (∀ i ty ti lv lv' co pg ch,
      collect_content (.mk i ty ti lv co pg ch) =
        collect_content (.mk i ty ti lv' co pg ch)) ∧
    (∀ i ti lv co pg ch t, ti = some t → t ≠ [] →
      (collect_content (.mk i "section".toList ti lv co pg ch)).take (3 + t.length) =
        hhMark ++ t) ∧
    (∀ ctx hier i ty ti ti' lv co pg ch, ty ≠ "section".toList →
      recursive_dfs ctx (.mk i ty ti lv co pg ch) hier =
        recursive_dfs ctx (.mk i ty ti' lv co pg ch) hier) := by
  refine ⟨fun i ty ti lv lv' co pg ch => rfl, ?_, ?_⟩
  · intro i ti lv co pg ch t hti ht
    subst hti
    rw [collect_content]
    simp only [ht, ne_eq, not_false_iff, and_true, if_pos rfl, List.cons_append]
    have hlen : (3 : Nat) + t.length = (hhMark ++ t).length := by
      simp [hhMark]
      omega
    rw [hlen]
    exact take_joinSep_head sepNN (hhMark ++ t) _
  · intro ctx hier i ty ti ti' lv co pg ch hty
    rw [recursive_dfs, recursive_dfs]
    have hx : ∀ ti'' : Option Str,
        hierExtend (.mk i ty ti'' lv co pg ch) hier = hier := by
      intro ti''
      cases ti'' with
      | none => rfl
      | some t =>
        show (if ty = "section".toList ∧ t ≠ [] then hier ++ [t] else hier) = hier
        rw [if_neg]
        exact fun hc => hty hc.1
    have h1 := hx ti
    have h2 := hx ti'
    have h3 : collect_content (.mk i ty ti lv co pg ch) =
        collect_content (.mk i ty ti' lv co pg ch) :=
      collect_content_title_irrel i ty ti ti' lv lv co pg ch hty
    have h4 : get_total_tokens (.mk i ty ti lv co pg ch) =
        get_total_tokens (.mk i ty ti' lv co pg ch) := rfl
    simp only [h1, h2, h3, h4, TreeNode.page_numbers]

/-- C10 witness: the heading-prefix part applied at a concrete section, and
the title-independence part applied at a concrete root. -/
theorem claim_C10_witness :
    (collect_content (sNode "A" 3 [1] [])).take 4 = "## A".toList ∧
    recursive_dfs (exCtx 8 20)
        (.mk "root".toList "root".toList (some "X".toList) (some 0) [] []
          [cNode "x" [1]]) [] =
      recursive_dfs (exCtx 8 20)
        (.mk "root".toList "root".toList none (some 0) [] [] [cNode "x" [1]]) [] := by
  constructor
  · have h := claim_C10.2.1 "s".toList (some "A".toList) (some 3) [] [1] []
      "A".toList rfl (by decide)
    exact h
  · exact claim_C10.2.2 (exCtx 8 20) [] "root".toList "root".toList
      (some "X".toList) none (some 0) [] [] [cNode "x" [1]] (by decide)

/-- Sorting the split points is idempotent. -/
theorem sortInt_idem (l : List Int) : sortInt (sortInt l) = sortInt l :=
  List.Sorted.insertionSort_eq (List.sorted_insertionSort _ l)

/-- Sorting preserves the number of split points. -/
theorem sortInt_length (l : List Int) : (sortInt l).length = l.length :=
  List.length_insertionSort _ l

/-- Flattening the fixed-size windows reproduces the text (fuel form). -/
theorem windowsGo_flatten (k : Nat) (hk : 1 ≤ k) :
    ∀ fuel (s : Str), s.length ≤ fuel → (windowsGo k fuel s).flatten = s := by
  intro fuel
  induction fuel with
  | zero =>
    intro s hs
    cases s with
    | nil => rfl
    | cons c cs => simp at hs
  | succ fuel ih =>
    intro s hs
    cases s with
    | nil => rfl
    | cons c cs =>
      simp only [List.length_cons] at hs
      have hd : ((c :: cs).drop k).length ≤ fuel := by
        rw [List.length_drop]
        simp only [List.length_cons]
        omega
      rw [windowsGo, List.flatten_cons, ih _ hd]
      exact List.take_append_drop k (c :: cs)

/-- Every fixed-size window has at most `k` characters (fuel form). -/
theorem windowsGo_le (k : Nat) :
    ∀ fuel (s : Str), ∀ w ∈ windowsGo k fuel s, w.length ≤ k := by
  intro fuel
  induction fuel with
  | zero =>
    intro s w hw
    cases s <;> simp [windowsGo] at hw
  | succ fuel ih =>
    intro s w hw
    cases s with
    | nil => simp [windowsGo] at hw
    | cons c cs =>
      rw [windowsGo] at hw
      rcases List.mem_cons.mp hw with h | h
      · subst h
        exact List.length_take_le k (c :: cs)
      · exact ih _ w h

/-- C4 (amended): an absent segmenter, a failing or non-list response, or a
response with fewer than two points all route to the deterministic
`_simple_split` fallback and no exception escapes; the fallback windows
tile the content exactly in `hard_limit * 4`-character pieces; but a
syntactically valid response with at least two points is repaired — sorted
(order-irrelevant) and clamped — and used, not rejected. -/
theorem claim_C4_amended (ctx : ChunkerCtx) (content : Str) (hier : List Str)
    (pages : List Int) :
    (ctx.seg = none →
      llm_split ctx content hier pages = simple_split ctx content hier pages) ∧
    (∀ f, ctx.seg = some f → f content = none →
      llm_split ctx content hier pages = simple_split ctx content hier pages) ∧
    (∀ pts : List Int, pts.length < 2 →
      llm_split_points ctx content hier pages pts =
        simple_split ctx content hier pages) ∧
    (∀ pts : List Int, llm_split_points ctx content hier pages pts =
      llm_split_points ctx content hier pages (sortInt pts)) ∧
    (∀ k : Int, 0 < k → (windows k content).flatten = content) ∧
    (∀ w ∈ windows (ctx.cfg.hard_limit * 4) content,
      w.length ≤ (ctx.cfg.hard_limit * 4).toNat) := by
  obtain ⟨cfg, tc, seg, dt, pd⟩ := ctx
  refine ⟨?_, ?_, ?_, ?_, ?_, ?_⟩
  · intro h
    simp only at h
    subst h
    rfl
  · intro f h hf
    simp only at h
    subst h
    simp only [llm_split, hf]
  · intro pts h
    rw [llm_split_points, if_pos h]
  · intro pts
    rw [llm_split_points, llm_split_points, sortInt_length, sortInt_idem]
  · intro k hk
    rw [windows, if_neg (not_le.mpr hk)]
    exact windowsGo_flatten k.toNat (by omega) content.length content le_rfl
  · intro w hw
    rw [windows] at hw
    split at hw
    · simp at hw
    · exact windowsGo_le _ _ content w hw

/-- C4 witness: the absent-segmenter route applied at a concrete context,
and the window tiling at a concrete size. -/
theorem claim_C4_amended_witness :
    llm_split (exCtx 1 2) "abcdefghijklmnop".toList [] [1]
      = simple_split (exCtx 1 2) "abcdefghijklmnop".toList [] [1] ∧
    (windows 8 "abcdefghijklmnop".toList).flatten = "abcdefghijklmnop".toList := by
  have h := claim_C4_amended (exCtx 1 2) "abcdefghijklmnop".toList [] [1]
  exact ⟨h.1 rfl, h.2.2.2.2.1 8 (by decide)⟩

/-- C4 counterexample: a non-ascending in-bounds response `[10, 2, 16]` is
not routed to the fallback: its chunks come from the sorted offsets
`[0, 2, 10, 16]` and differ from `_simple_split`'s fixed windows. -/
theorem claim_C4_counterexample :
    (llm_split ⟨⟨1, 2, 1000, 100, 50, true⟩, fallbackCounter,
        some (fun _ => some [10, 2, 16]), "D".toList, none⟩
        "abcdefghijklmnop".toList [] [1]).map Chunk.content
      = ["ab".toList, "cdefghij".toList, "klmnop".toList] ∧
    (simple_split ⟨⟨1, 2, 1000, 100, 50, true⟩, fallbackCounter,
        some (fun _ => some [10, 2, 16]), "D".toList, none⟩
        "abcdefghijklmnop".toList [] [1]).map Chunk.content
      = ["abcdefgh".toList, "ijklmnop".toList] ∧
    ¬ List.Sorted (· ≤ ·) [(10 : Int), 2, 16] := by
  refine ⟨by decide, by decide, ?_⟩
  intro h
  have := List.rel_of_sorted_cons h 2 (by decide)
  omega

/-- C6 (amended): `_process_children` coincides everywhere with the loop as
the claim words it, amended only in the final step: children are consumed
in order with an accumulation buffer; a small child is appended and the
buffer is flushed as one chunk exactly when its accumulated token count
reaches `soft_limit`; a large child first flushes any pending buffer (even
under `soft_limit`) and is then handled by an independent recursive call;
after the last child the buffer is flushed when its text is non-blank (a
whitespace-only trailing buffer is discarded, not emitted). -/
theorem claim_C6_amended (ctx : ChunkerCtx) (hier : List Str) :
    ∀ (children : List TreeNode) (accC : List Str) (accP : List Int),
      process_children ctx children hier accC accP =
        processChildrenSpecGo ctx hier children accC accP := by
  intro children
  induction children with
  | nil =>
    intro accC accP
    rw [process_children, processChildrenSpecGo]
    cases accC with
    | nil => simp [joinSep, stripStr]
    | cons a as => simp
  | cons c cs ih =>
    intro accC accP
    rw [process_children, processChildrenSpecGo]
    split
    · dsimp only
      split
      · rw [ih]
      · rw [ih]
    · rw [ih]
      cases accC with
      | nil => simp
      | cons a as => simp

/-- C6 counterexample: with a large child followed by a whitespace-only
small child, the code emits one chunk and discards the trailing buffer,
while the loop exactly as claimed (flush any non-empty buffer after the
last child) would emit the blank trailing chunk as well. -/
theorem claim_C6_counterexample :
    (process_children (exCtx 1 100) [cNode "aaaa" [], cNode " " []] [] [] []).map
        Chunk.content = ["aaaa".toList] ∧
    (processChildrenClaimGo (exCtx 1 100) [] [cNode "aaaa" [], cNode " " []] [] []).map
        Chunk.content = ["aaaa".toList, " ".toList] := by decide

/-- `monoAtList` distributes over append. -/
theorem monoAtList_append (pl : Int) (xs ys : List TreeNode) :
    monoAtList pl (xs ++ ys) = (monoAtList pl xs && monoAtList pl ys) := by
  induction xs with
  | nil => simp [monoAtList]
  | cons c cs ih =>
    rw [List.cons_append, monoAtList, monoAtList, ih]
    simp [Bool.and_assoc]

/-- Closing a frame turns its collected-children invariant into `monoAt`. -/
theorem monoAt_close (f : Frame) :
    monoAt f.close = monoAtList (levelVal f.level) f.children := rfl

/-- Attaching a closed child frame of strictly larger level preserves a
frame's collected-children invariant. -/
theorem monoAtList_addChild (g : Frame) (f : Frame)
    (hg : monoAtList (levelVal g.level) g.children = true)
    (hf : monoAtList (levelVal f.level) f.children = true)
    (hlt : levelVal g.level < levelVal f.level) :
    monoAtList (levelVal g.level) (g.addChild f.close).children = true := by
  show monoAtList (levelVal g.level) (g.children ++ [f.close]) = true
  rw [monoAtList_append, hg, Bool.true_and, monoAtList, monoAtList]
  have hc : monoAt f.close = true := by rw [monoAt_close]; exact hf
  have hl : levelVal f.close.level = levelVal f.level := rfl
  simp [hc, hl, hlt]

/-- The pop loop preserves the stack invariant and leaves a top of level
`< L`. -/
theorem popWhile_inv (L : Int) (hL : 1 ≤ L) :
    ∀ (rest : List Frame) (f : Frame), stackInv (f :: rest) →
      ∃ f' rest', popWhile L f rest = f' :: rest' ∧ stackInv (f' :: rest') ∧
        levelVal f'.level < L := by
  intro rest
  induction rest with
  | nil =>
    intro f hf
    exact ⟨f, [], rfl, hf, by have := hf.1; omega⟩
  | cons g rest' ih =>
    intro f hf
    rw [popWhile]
    split
    · rename_i hcond
      apply ih
      obtain ⟨h1, h2, h3, h4⟩ := hf
      have hmono : monoAtList (levelVal g.level) (g.addChild f.close).children = true := by
        apply monoAtList_addChild g f _ h3 h2
        cases rest' with
        | nil => exact h4.2
        | cons h t => exact h4.2.2.1
      have hlev : levelVal (g.addChild f.close).level = levelVal g.level := rfl
      cases rest' with
      | nil => exact ⟨hlev ▸ h4.1, hlev ▸ hmono⟩
      | cons h t => exact ⟨hlev ▸ h4.1, hlev ▸ h4.2.1, hlev ▸ hmono, h4.2.2.2⟩
    · rename_i hcond
      refine ⟨f, g :: rest', rfl, hf, ?_⟩
      rcases not_and_or.mp hcond with h | h
      · have : levelVal f.level = 0 := by omega
        omega
      · omega

/-- A freshly made content node satisfies the child-monotonicity check
against any parent level (its type is not `"section"`). -/
theorem monoAtList_contentNode (pl : Int) (b : Block) :
    monoAtList pl [contentNode b] = true := by
  have h1 : (decide (¬ (contentNode b).type = "section".toList)
      || decide (pl < levelVal (contentNode b).level)) = true := by
    have h0 : ¬ (contentNode b).type = "section".toList := by
      rw [show (contentNode b).type = "content".toList from rfl]
      decide
    rw [decide_eq_true h0, Bool.true_or]
  rw [monoAtList, monoAtList, h1]
  have h2 : monoAt (contentNode b) = true := rfl
  rw [h2]
  rfl

/-- One builder step preserves the stack invariant. -/
theorem insertBlock_inv (st : List Frame) (b : Block) (hb : 0 ≤ levelVal b.level)
    (hst : stackInv st) : stackInv (insertBlock st b) := by
  cases st with
  | nil => exact absurd hst id
  | cons f rest =>
    rw [insertBlock]
    split
    · rename_i hhdr
      have hL : 1 ≤ levelVal b.level := by
        have := hhdr.2
        omega
      obtain ⟨f', rest', heq, hinv, hlt⟩ := popWhile_inv (levelVal b.level) hL rest f hst
      rw [heq]
      have hsec : levelVal (sectionFrame b).level = levelVal b.level := rfl
      have hch : monoAtList (levelVal (sectionFrame b).level) (sectionFrame b).children = true := rfl
      exact ⟨by rw [hsec]; exact hL, by rw [hsec]; exact hlt, hch, hinv⟩
    · have hadd : ∀ pl : Int, monoAtList pl f.children = true →
          monoAtList pl (f.addChild (contentNode b)).children = true := by
        intro pl hmono
        show monoAtList pl (f.children ++ [contentNode b]) = true
        rw [monoAtList_append, hmono, monoAtList_contentNode]
        rfl
      have hlev : (f.addChild (contentNode b)).level = f.level := rfl
      cases rest with
      | nil =>
        exact ⟨by rw [hlev]; exact hst.1, by rw [hlev]; exact hadd _ hst.2⟩
      | cons g t =>
        exact ⟨by rw [hlev]; exact hst.1, by rw [hlev]; exact hst.2.1,
          by rw [hlev]; exact hadd _ hst.2.2.1, hst.2.2.2⟩

/-- The whole block loop preserves the stack invariant. -/
theorem foldl_insertBlock_inv (blocks : List Block)
    (hb : ∀ b ∈ blocks, 0 ≤ levelVal b.level) :
    ∀ st, stackInv st → stackInv (blocks.foldl insertBlock st) := by
  induction blocks with
  | nil => intro st h; exact h
  | cons b bs ih =>
    intro st h
    exact ih (fun x hx => hb x (List.mem_cons_of_mem b hx))
      (insertBlock st b) (insertBlock_inv st b (hb b (List.mem_cons_self b bs)) h)

/-- Collapsing an invariant-satisfying stack yields a monotone tree. -/
theorem collapse_mono :
    ∀ (rest : List Frame) (f : Frame), stackInv (f :: rest) →
      monoAt (collapse f rest) = true := by
  intro rest
  induction rest with
  | nil =>
    intro f hf
    rw [collapse, monoAt_close]
    exact hf.2
  | cons g t ih =>
    intro f hf
    rw [collapse]
    apply ih
    obtain ⟨h1, h2, h3, h4⟩ := hf
    have hmono : monoAtList (levelVal g.level) (g.addChild f.close).children = true := by
      apply monoAtList_addChild g f _ h3 h2
      cases t with
      | nil => exact h4.2
      | cons x xs => exact h4.2.2.1
    have hlev : levelVal (g.addChild f.close).level = levelVal g.level := rfl
    cases t with
    | nil => exact ⟨hlev ▸ h4.1, hlev ▸ hmono⟩
    | cons x xs => exact ⟨hlev ▸ h4.1, hlev ▸ h4.2.1, hlev ▸ hmono, h4.2.2.2⟩

/-- C5 (confirmed): for blocks with non-negative header levels (the Block
model's `level` is `1..4`), every section node in the built tree has a level
strictly greater than its parent's, the root counting as level 0 — two
consecutive equal-level headers therefore become siblings, never nested. -/
theorem claim_C5 (blocks : List Block)
    (hlv : ∀ b ∈ blocks, 0 ≤ levelVal b.level) :
    monoAt (build_tree blocks) = true := by
  have h0 : stackInv [rootFrame] := ⟨rfl, rfl⟩
  have hinv := foldl_insertBlock_inv blocks hlv [rootFrame] h0
  rw [build_tree]
  split
  · rename_i heq
    rw [heq] at hinv
    exact absurd hinv id
  · rename_i f rest heq
    rw [heq] at hinv
    exact collapse_mono rest f hinv

/-- C5 witness (Scenario B): two consecutive level-1 headers produce a
monotone tree whose root has them as two siblings. -/
theorem claim_C5_witness :
    monoAt (build_tree [hBlock "A" 1 1, hBlock "B" 1 1]) = true ∧
    (build_tree [hBlock "A" 1 1, hBlock "B" 1 1]).children.length = 2 ∧
    (build_tree [hBlock "A" 1 1, hBlock "B" 1 1]).children.map (fun c => c.title)
      = [some "A".toList, some "B".toList] := by
  refine ⟨claim_C5 _ ?_, by decide, by decide⟩
  intro b hb
  rcases List.mem_cons.mp hb with h | h
  · subst h; decide
  · rcases List.mem_cons.mp h with h' | h'
    · subst h'; decide
    · cases h'

/-! ### String lemmas for C1 -/

/-- Unfolding equation of `splitNN` on a two-or-more character string. -/
theorem splitNN_cons_cons (c d : Char) (rest : Str) :
    splitNN (c :: d :: rest) =
      if c = '\n' ∧ d = '\n' then [] :: splitNN rest
      else consHead c (splitNN (d :: rest)) := by
  rw [splitNN]

/-- `splitNN` always yields at least one part. -/
theorem splitNN_ne_nil : ∀ s : Str, splitNN s ≠ []
  | [] => by rw [splitNN]; exact List.cons_ne_nil _ _
  | [c] => by rw [splitNN]; exact List.cons_ne_nil _ _
  | c :: d :: rest => by
    rw [splitNN_cons_cons]
    split
    · exact List.cons_ne_nil _ _
    · cases h : splitNN (d :: rest) with
      | nil => exact absurd h (splitNN_ne_nil (d :: rest))
      | cons p ps => rw [consHead]; exact List.cons_ne_nil _ _

/-- `consHead` only touches the first part. -/
theorem consHead_append (c : Char) (xs ys : List Str) (hx : xs ≠ []) :
    consHead c (xs ++ ys) = consHead c xs ++ ys := by
  cases xs with
  | nil => exact absurd rfl hx
  | cons p ps => rfl

/-- A string without the separator splits into itself. -/
theorem splitNN_of_noNN : ∀ s : Str, hasNN s = false → splitNN s = [s]
  | [] => fun _ => rfl
  | [c] => fun _ => rfl
  | c :: d :: rest => fun h => by
    rw [hasNN] at h
    rw [splitNN_cons_cons]
    split
    · rename_i hc
      rw [if_pos hc] at h
      exact absurd h (by simp)
    · rename_i hc
      rw [if_neg hc] at h
      rw [splitNN_of_noNN (d :: rest) h]
      rfl

/-- Dropping the head of a two-element-or-longer list keeps its last
character. -/
theorem endsNL_cons_cons (c d : Char) (r : Str) :
    endsNL (c :: d :: r) = endsNL (d :: r) := by
  unfold endsNL
  rw [List.getLast?_cons_cons]

/-- Splitting distributes over an explicit separator, provided the left
part does not end in a newline (so no separator straddles the boundary). -/
theorem splitNN_sep : ∀ (a b : Str), endsNL a = false →
    splitNN (a ++ '\n' :: '\n' :: b) = splitNN a ++ splitNN b
  | [], b, _ => by
    rw [List.nil_append, splitNN_cons_cons, if_pos ⟨rfl, rfl⟩]
    rfl
  | [c], b, h => by
    have hc : ¬ c = '\n' := by
      intro hc
      subst hc
      exact absurd h (by rw [endsNL]; simp [List.getLast?])
    rw [List.cons_append, List.nil_append, splitNN_cons_cons,
      if_neg (fun hx => hc hx.1), splitNN_cons_cons, if_pos ⟨rfl, rfl⟩]
    rfl
  | c :: d :: a'', b, h => by
    rw [List.cons_append, List.cons_append, splitNN_cons_cons]
    by_cases hcd : c = '\n' ∧ d = '\n'
    · rw [if_pos hcd]
      have h'' : endsNL a'' = false := by
        cases a'' with
        | nil => rfl
        | cons x xs =>
          rw [endsNL_cons_cons, endsNL_cons_cons] at h
          exact h
      rw [splitNN_sep a'' b h'', splitNN_cons_cons, if_pos hcd]
      rfl
    · rw [if_neg hcd]
      have h' : endsNL (d :: a'') = false := by
        rw [endsNL_cons_cons] at h
        exact h
      have hrec := splitNN_sep (d :: a'') b h'
      rw [List.cons_append] at hrec
      rw [hrec, consHead_append c _ _ (splitNN_ne_nil (d :: a'')),
        splitNN_cons_cons, if_neg hcd]

/-- Strong induction principle for the nested `TreeNode` type. -/
theorem TreeNode.ind' (P : TreeNode → Prop)
    (h : ∀ i ty ti lv co pg ch, (∀ c ∈ ch, P c) → P (.mk i ty ti lv co pg ch)) :
    ∀ n, P n := by
  intro n
  generalize hn : sizeOf n = k
  induction k using Nat.strong_induction_on generalizing n with
  | _ k ih =>
    cases n with
    | mk i ty ti lv co pg ch =>
      apply h
      intro c hc
      exact ih (sizeOf c)
        (by subst hn; have := List.sizeOf_lt_of_mem hc
            simp only [TreeNode.mk.sizeOf_spec]; omega) c rfl

/-- `stripStr s` is empty exactly when every character of `s` is
whitespace. -/
theorem stripStr_eq_nil_iff (s : Str) :
    stripStr s = [] ↔ ∀ c ∈ s, c.isWhitespace := by
  unfold stripStr
  rw [List.reverse_eq_nil_iff, List.dropWhile_eq_nil_iff]
  constructor
  · intro h c hc
    have hsplit := List.takeWhile_append_dropWhile (p := Char.isWhitespace) (l := s)
    rw [← hsplit] at hc
    rcases List.mem_append.mp hc with h1 | h1
    · exact List.mem_takeWhile_imp h1
    · exact h c (List.mem_reverse.mpr h1)
  · intro h c hc
    have hc' : c ∈ s := by
      have hsplit := List.takeWhile_append_dropWhile (p := Char.isWhitespace) (l := s)
      rw [← hsplit]
      exact List.mem_append.mpr (Or.inr (List.mem_reverse.mp hc))
    exact h c hc'

/-- A string containing a non-whitespace character survives stripping. -/
theorem stripStr_ne_nil_of_mem {s : Str} {c : Char} (hc : c ∈ s)
    (hw : ¬ c.isWhitespace) : stripStr s ≠ [] := by
  intro h
  exact hw ((stripStr_eq_nil_iff s).mp h c hc)

/-- A string that survives stripping is non-empty. -/
theorem ne_nil_of_stripStr_ne_nil {s : Str} (h : stripStr s ≠ []) : s ≠ [] := by
  intro hs
  subst hs
  exact h rfl

/-- Unpacking a well-behaved content text. -/
theorem goodText_iff (s : Str) :
    goodText s = true ↔
      hasNN s = false ∧ endsNL s = false ∧ stripStr s ≠ [] ∧ notHeading s = true := by
  unfold goodText
  simp [Bool.and_eq_true, Bool.not_eq_true', List.isEmpty_iff, and_assoc]

/-- Unpacking a well-behaved title. -/
theorem goodTitle_iff (t : Str) :
    goodTitle t = true ↔ hasNN t = false ∧ endsNL t = false := by
  unfold goodTitle
  simp [Bool.and_eq_true, Bool.not_eq_true']

/-- Case analysis on a well-behaved non-root node: it is a section with a
non-empty well-behaved title and empty content, or a childless title-less
content node with well-behaved text. -/
theorem goodSub_cases (i ty : Str) (ti : Option Str) (lv : Option Int)
    (co : Str) (pg : List Int) (ch : List TreeNode)
    (h : goodSub (.mk i ty ti lv co pg ch) = true) :
    goodSubList ch = true ∧
      ((ty = "section".toList ∧ co = [] ∧
          ∃ t, ti = some t ∧ t ≠ [] ∧ goodTitle t = true) ∨
       (ty = "content".toList ∧ goodText co = true ∧ ch = [] ∧ ti = none)) := by
  rw [goodSub.eq_def] at h
  rw [Bool.and_eq_true] at h
  refine ⟨h.1, ?_⟩
  have h2 := h.2
  rw [Bool.or_eq_true] at h2
  rcases h2 with h2 | h2
  · left
    rw [Bool.and_eq_true, Bool.and_eq_true] at h2
    obtain ⟨⟨hty, hco⟩, hti⟩ := h2
    refine ⟨of_decide_eq_true hty, List.isEmpty_iff.mp hco, ?_⟩
    cases ti with
    | none => exact absurd hti (by simp)
    | some t =>
      rw [Bool.and_eq_true, Bool.not_eq_true', List.isEmpty_eq_false] at hti
      exact ⟨t, rfl, hti.1, hti.2⟩
  · right
    rw [Bool.and_eq_true, Bool.and_eq_true, Bool.and_eq_true] at h2
    obtain ⟨⟨⟨hty, hco⟩, hch⟩, hti⟩ := h2
    refine ⟨of_decide_eq_true hty, hco, List.isEmpty_iff.mp hch, ?_⟩
    cases ti with
    | none => rfl
    | some t => exact absurd hti (by simp)

/-- `goodSubList` means every member is good. -/
theorem goodSubList_iff : ∀ ch : List TreeNode,
    goodSubList ch = true ↔ ∀ c ∈ ch, goodSub c = true
  | [] => by simp [goodSubList]
  | c :: cs => by
    rw [goodSubList, Bool.and_eq_true, goodSubList_iff cs]
    simp

/-- `joinSep` of a list with a non-empty head starts with that head. -/
theorem joinSep_head_decomp (sep : Str) (x : Str) (rest : List Str) :
    ∃ w, joinSep sep (x :: rest) = x ++ w := by
  cases rest with
  | nil => exact ⟨[], by rw [joinSep, List.append_nil]⟩
  | cons y ys => exact ⟨sep ++ joinSep sep (y :: ys), by rw [joinSep, List.append_assoc]⟩

/-- Appending a non-empty string on the right determines the last
character. -/
theorem endsNL_append (s t : Str) (ht : t ≠ []) : endsNL (s ++ t) = endsNL t := by
  unfold endsNL
  rw [List.getLast?_append_of_ne_nil s ht]

/-- The bodies of a `"\n\n"`-join are the concatenation of the bodies of
the parts, provided no part ends in a newline. -/
theorem bodies_joinSep : ∀ (x : Str) (rest : List Str),
    endsNL x = false → (∀ s ∈ rest, endsNL s = false) →
    (splitNN (joinSep sepNN (x :: rest))).filter notHeading =
      ((x :: rest).map fun s => (splitNN s).filter notHeading).flatten := by
  intro x rest
  induction rest generalizing x with
  | nil =>
    intro _ _
    rw [joinSep]
    simp
  | cons y ys ih =>
    intro hx hrest
    rw [joinSep, List.append_assoc]
    have hsep : sepNN ++ joinSep sepNN (y :: ys) = '\n' :: '\n' :: joinSep sepNN (y :: ys) := rfl
    rw [hsep, splitNN_sep x _ hx, List.filter_append]
    rw [ih y (hrest y (List.mem_cons_self y ys))
      (fun s hs => hrest s (List.mem_cons_of_mem y hs))]
    simp

/-- Unfolding of `collect_content` at a constructor. -/
theorem collect_content_mk (i ty : Str) (ti : Option Str) (lv : Option Int)
    (co : Str) (pg : List Int) (ch : List TreeNode) :
    collect_content (.mk i ty ti lv co pg ch) =
      joinSep sepNN
        ((match ti with
          | some t => if ty = "section".toList ∧ t ≠ [] then [hhMark ++ t] else []
          | none => []) ++
         (if co ≠ [] then [co] else []) ++ collect_children ch) := rfl

/-- Unfolding of the child loop of `_collect_content`. -/
theorem collect_children_cons (c : TreeNode) (cs : List TreeNode) :
    collect_children (c :: cs) =
      (if collect_content c ≠ [] then [collect_content c] else []) ++
        collect_children cs := rfl

/-- Unfolding of `nodeTexts` at a constructor. -/
theorem nodeTexts_mk (i ty : Str) (ti : Option Str) (lv : Option Int)
    (co : Str) (pg : List Int) (ch : List TreeNode) :
    nodeTexts (.mk i ty ti lv co pg ch) =
      (if co ≠ [] then [co] else []) ++ nodeTextsList ch := rfl

/-- `nodeTextsList` is the flattened per-child `nodeTexts`. -/
theorem nodeTextsList_eq_flatten : ∀ ch : List TreeNode,
    nodeTextsList ch = (ch.map nodeTexts).flatten
  | [] => rfl
  | c :: cs => by
    rw [nodeTextsList, List.map_cons, List.flatten_cons, nodeTextsList_eq_flatten cs]

/-- When every child renders non-empty, the child loop keeps them all. -/
theorem collect_children_eq_map : ∀ ch : List TreeNode,
    (∀ c ∈ ch, collect_content c ≠ []) →
    collect_children ch = ch.map collect_content := by
  intro ch
  induction ch with
  | nil => intro _; rfl
  | cons c cs ih =>
    intro h
    rw [collect_children_cons, if_pos (h c (List.mem_cons_self c cs)),
      ih (fun x hx => h x (List.mem_cons_of_mem c hx)), List.map_cons,
      List.singleton_append]

/-- A join with a non-empty head is non-empty. -/
theorem joinSep_cons_ne_nil (sep : Str) (x : Str) (rest : List Str)
    (hx : x ≠ []) : joinSep sep (x :: rest) ≠ [] := by
  obtain ⟨w, hw⟩ := joinSep_head_decomp sep x rest
  rw [hw]
  intro h
  exact hx (List.append_eq_nil.mp h).1

/-- A join of non-empty parts, none of which ends in a newline, does not
end in a newline. -/
theorem endsNL_joinSep (sep : Str) : ∀ (rest : List Str) (x : Str),
    x ≠ [] → endsNL x = false → (∀ s ∈ rest, s ≠ [] ∧ endsNL s = false) →
    endsNL (joinSep sep (x :: rest)) = false
  | [], x, _, hx2, _ => by rw [joinSep]; exact hx2
  | y :: ys, x, hx1, hx2, hrest => by
    rw [joinSep]
    have hy := hrest y (List.mem_cons_self y ys)
    have hys : ∀ s ∈ ys, s ≠ [] ∧ endsNL s = false :=
      fun s hs => hrest s (List.mem_cons_of_mem y hs)
    have hj : joinSep sep (y :: ys) ≠ [] := joinSep_cons_ne_nil sep y ys hy.1
    rw [List.append_assoc, endsNL_append _ _ (fun h => hj (List.append_eq_nil.mp h).2)]
    rw [endsNL_append _ _ hj]
    exact endsNL_joinSep sep ys y hy.1 hy.2 hys

/-- Prepending a non-newline character preserves separator-freeness. -/
theorem hasNN_cons_of_ne (c : Char) (t : Str) (hc : ¬ c = '\n') :
    hasNN (c :: t) = hasNN t := by
  cases t with
  | nil => rfl
  | cons d r =>
    show (if c = '\n' ∧ d = '\n' then true else hasNN (d :: r)) = hasNN (d :: r)
    rw [if_neg (fun h => hc h.1)]

/-- The heading marker adds no separator. -/
theorem hasNN_heading (t : Str) : hasNN (hhMark ++ t) = hasNN t := by
  show hasNN ('#' :: '#' :: ' ' :: t) = hasNN t
  rw [hasNN_cons_of_ne '#' _ (by decide), hasNN_cons_of_ne '#' _ (by decide),
    hasNN_cons_of_ne ' ' _ (by decide)]

/-- A rendered heading line is recognized as a heading. -/
theorem notHeading_heading (t : Str) : notHeading (hhMark ++ t) = false := by
  unfold notHeading
  rw [show (3 : Nat) = hhMark.length from rfl, List.take_left]
  simp

/-- The joint rendering facts for well-behaved non-root subtrees: the
bodies of the rendered content are exactly the subtree's content texts, and
the rendering is non-empty, newline-clean and non-blank. -/
theorem render_good : ∀ n : TreeNode, goodSub n = true →
    ((splitNN (collect_content n)).filter notHeading = nodeTexts n ∧
     collect_content n ≠ [] ∧ endsNL (collect_content n) = false ∧
     stripStr (collect_content n) ≠ []) := by
  intro n
  induction n using TreeNode.ind' with
  | h i ty ti lv co pg ch ih =>
    intro hg
    obtain ⟨hch, hshape⟩ := goodSub_cases i ty ti lv co pg ch hg
    have hch' := (goodSubList_iff ch).mp hch
    have hcc : ∀ c ∈ ch,
        (splitNN (collect_content c)).filter notHeading = nodeTexts c ∧
        collect_content c ≠ [] ∧ endsNL (collect_content c) = false ∧
        stripStr (collect_content c) ≠ [] := fun c hc => ih c hc (hch' c hc)
    have hmap : collect_children ch = ch.map collect_content :=
      collect_children_eq_map ch (fun c hc => (hcc c hc).2.1)
    rcases hshape with ⟨hty, hco, t, hti, htne, htg⟩ | ⟨hty, hco, hchnil, hti⟩
    · subst hty hti hco
      obtain ⟨ht1, ht2⟩ := (goodTitle_iff t).mp htg
      have hcol : collect_content
            (.mk i "section".toList (some t) lv [] pg ch)
          = joinSep sepNN ((hhMark ++ t) :: ch.map collect_content) := by
        rw [collect_content_mk, hmap]
        simp [htne]
      have hheadne : hhMark ++ t ≠ [] := by
        intro h
        exact absurd (List.append_eq_nil.mp h).1 (by decide)
      have hheadNL : endsNL (hhMark ++ t) = false := by
        rw [endsNL_append _ _ htne]
        exact ht2
      have helems : ∀ s ∈ ch.map collect_content, endsNL s = false := by
        intro s hs
        obtain ⟨c, hc, rfl⟩ := List.mem_map.mp hs
        exact (hcc c hc).2.2.1
      have helems' : ∀ s ∈ ch.map collect_content, s ≠ [] ∧ endsNL s = false := by
        intro s hs
        obtain ⟨c, hc, rfl⟩ := List.mem_map.mp hs
        exact ⟨(hcc c hc).2.1, (hcc c hc).2.2.1⟩
      have hmm : List.map (fun s => List.filter notHeading (splitNN s))
            (List.map collect_content ch) = List.map nodeTexts ch := by
        rw [List.map_map]
        exact List.map_congr_left (fun c hc => (hcc c hc).1)
      refine ⟨?_, ?_, ?_, ?_⟩
      · rw [hcol, bodies_joinSep _ _ hheadNL helems]
        rw [List.map_cons, List.flatten_cons]
        rw [splitNN_of_noNN _ (by rw [hasNN_heading]; exact ht1)]
        rw [show List.filter notHeading [hhMark ++ t] = [] by
          simp [List.filter, notHeading_heading]]
        rw [hmm, ← nodeTextsList_eq_flatten, nodeTexts_mk]
        simp
      · rw [hcol]
        exact joinSep_cons_ne_nil _ _ _ hheadne
      · rw [hcol]
        exact endsNL_joinSep _ _ _ hheadne hheadNL helems'
      · rw [hcol]
        obtain ⟨w, hw⟩ := joinSep_head_decomp sepNN (hhMark ++ t) (ch.map collect_content)
        rw [hw]
        have hmem : ('#' : Char) ∈ (hhMark ++ t) ++ w :=
          List.mem_append.mpr (Or.inl (List.mem_append.mpr (Or.inl (by decide))))
        exact stripStr_ne_nil_of_mem hmem (by decide)
    · subst hty hti hchnil
      obtain ⟨hc1, hc2, hc3, hc4⟩ := (goodText_iff co).mp hco
      have hcone : co ≠ [] := ne_nil_of_stripStr_ne_nil hc3
      have hcol : collect_content (.mk i "content".toList none lv co pg [])
          = co := by
        rw [collect_content_mk]
        simp [hcone]
        rfl
      refine ⟨?_, ?_, ?_, ?_⟩
      · rw [hcol, splitNN_of_noNN _ hc1, nodeTexts_mk]
        simp [List.filter, hc4, hcone]
        rfl
      · rw [hcol]; exact hcone
      · rw [hcol]; exact hc2
      · rw [hcol]; exact hc3

/-- Unfolding of `nodeTextsList` at a cons. -/
theorem nodeTextsList_cons (c : TreeNode) (cs : List TreeNode) :
    nodeTextsList (c :: cs) = nodeTexts c ++ nodeTextsList cs := rfl

/-- `nodeTextsList` distributes over append. -/
theorem nodeTextsList_append : ∀ a b : List TreeNode,
    nodeTextsList (a ++ b) = nodeTextsList a ++ nodeTextsList b
  | [], b => rfl
  | c :: cs, b => by
    rw [List.cons_append, nodeTextsList_cons, nodeTextsList_cons,
      nodeTextsList_append cs b, List.append_assoc]

/-- A left part surviving stripping makes the append survive stripping. -/
theorem stripStr_ne_nil_append (a w : Str) (ha : stripStr a ≠ []) :
    stripStr (a ++ w) ≠ [] := by
  intro h
  apply ha
  rw [stripStr_eq_nil_iff] at h ⊢
  exact fun c hc => h c (List.mem_append.mpr (Or.inl hc))

/-- The bodies of a chunk made by `_create_chunk` are the bodies of its
content. -/
theorem chunkBodies_create (ctx : ChunkerCtx) (content : Str) (hier : List Str)
    (pages : List Int) :
    chunkBodies (create_chunk ctx content hier pages) =
      (splitNN content).filter notHeading := rfl

/-- The accumulation buffer holds the renders of a list of good nodes; its
flush produces exactly their content texts, and is never blank. -/
theorem bodies_buffer : ∀ ns : List TreeNode, ns ≠ [] →
    (∀ c ∈ ns, goodSub c = true) →
    ((splitNN (joinSep sepNN (ns.map collect_content))).filter notHeading =
        nodeTextsList ns ∧
      stripStr (joinSep sepNN (ns.map collect_content)) ≠ []) := by
  intro ns hne hg
  cases ns with
  | nil => exact absurd rfl hne
  | cons n0 ns' =>
    have h0 := render_good n0 (hg n0 (List.mem_cons_self n0 ns'))
    have hrest : ∀ s ∈ ns'.map collect_content, endsNL s = false := by
      intro s hs
      obtain ⟨c, hc, rfl⟩ := List.mem_map.mp hs
      exact (render_good c (hg c (List.mem_cons_of_mem n0 hc))).2.2.1
    have hmm : List.map (fun s => List.filter notHeading (splitNN s))
          (List.map collect_content ns') = List.map nodeTexts ns' := by
      rw [List.map_map]
      exact List.map_congr_left
        (fun c hc => (render_good c (hg c (List.mem_cons_of_mem n0 hc))).1)
    constructor
    · rw [List.map_cons, bodies_joinSep _ _ h0.2.2.1 hrest, List.map_cons,
        List.flatten_cons, h0.1, hmm, ← nodeTextsList_eq_flatten, nodeTextsList_cons]
    · rw [List.map_cons]
      obtain ⟨w, hw⟩ := joinSep_head_decomp sepNN (collect_content n0)
        (ns'.map collect_content)
      rw [hw]
      exact stripStr_ne_nil_append _ _ h0.2.2.2

/-- Unfolding of `leafFit` at a constructor. -/
theorem leafFit_mk (cfg : ChunkingConfig) (i ty : Str) (ti : Option Str)
    (lv : Option Int) (co : Str) (pg : List Int) (ch : List TreeNode) :
    leafFit cfg (.mk i ty ti lv co pg ch) =
      ((if ch.isEmpty then
          decide ((get_total_tokens (.mk i ty ti lv co pg ch) : Int) ≤ cfg.hard_limit)
        else true) && leafFitList cfg ch) := rfl

/-- `leafFitList` means every member fits. -/
theorem leafFitList_iff (cfg : ChunkingConfig) : ∀ ch : List TreeNode,
    leafFitList cfg ch = true ↔ ∀ c ∈ ch, leafFit cfg c = true
  | [] => by simp [leafFitList]
  | c :: cs => by
    rw [leafFitList, Bool.and_eq_true, leafFitList_iff cfg cs]
    simp

/-- The child-merging loop emits, as bodies, exactly the pending buffer's
texts followed by the children's texts, given that each child satisfies the
traversal property. -/
theorem process_children_bodies (ctx : ChunkerCtx) (hier : List Str) :
    ∀ cs : List TreeNode,
      (∀ c ∈ cs, goodSub c = true ∧
        (∀ hier', ((recursive_dfs ctx c hier').map chunkBodies).flatten = nodeTexts c)) →
      ∀ (ns : List TreeNode) (accP : List Int), (∀ c ∈ ns, goodSub c = true) →
      ((process_children ctx cs hier (ns.map collect_content) accP).map
          chunkBodies).flatten
        = nodeTextsList ns ++ nodeTextsList cs := by
  intro cs
  induction cs with
  | nil =>
    intro _ ns accP hns
    rw [process_children]
    by_cases hne : ns = []
    · subst hne
      simp [nodeTextsList]
    · have hb := bodies_buffer ns hne hns
      have hmapne : ns.map collect_content ≠ [] := by
        cases ns with
        | nil => exact absurd rfl hne
        | cons a l => simp
      rw [if_pos hmapne]
      dsimp only
      rw [if_pos hb.2]
      rw [List.map_cons, List.map_nil, List.flatten_cons]
      rw [chunkBodies_create, hb.1]
      simp [nodeTextsList]
  | cons c cs' ih =>
    intro hcs ns accP hns
    have hc := hcs c (List.mem_cons_self c cs')
    have hcs' : ∀ x ∈ cs', goodSub x = true ∧
        (∀ hier', ((recursive_dfs ctx x hier').map chunkBodies).flatten = nodeTexts x) :=
      fun x hx => hcs x (List.mem_cons_of_mem c hx)
    rw [process_children]
    have hns1 : ∀ x ∈ ns ++ [c], goodSub x = true := by
      intro x hx
      rcases List.mem_append.mp hx with h | h
      · exact hns x h
      · rw [List.mem_singleton.mp h]
        exact hc.1
    have haccC : ns.map collect_content ++ [collect_content c]
        = (ns ++ [c]).map collect_content := by
      rw [List.map_append, List.map_singleton]
    split
    · dsimp only
      rw [haccC]
      split
      · rw [List.map_cons, List.flatten_cons, chunkBodies_create]
        rw [(bodies_buffer (ns ++ [c]) (by simp) hns1).1]
        have := ih hcs' [] [] (by intro x hx; cases hx)
        rw [List.map_nil] at this
        rw [this]
        rw [nodeTextsList_append, nodeTextsList_cons]
        simp [nodeTextsList]
      · rw [ih hcs' (ns ++ [c]) (accP ++ c.page_numbers) hns1]
        rw [nodeTextsList_append, nodeTextsList_cons]
        simp [nodeTextsList]
    · rw [List.map_append, List.map_append, List.flatten_append, List.flatten_append]
      have hrec := ih hcs' [] [] (by intro x hx; cases hx)
      rw [List.map_nil] at hrec
      rw [hrec, hc.2 hier, nodeTextsList_cons]
      by_cases hne : ns = []
      · subst hne
        rw [show (List.map collect_content [] : List Str) = [] from rfl]
        rw [if_neg (by intro h; exact h rfl)]
        simp [nodeTextsList]
      · have hmapne : ns.map collect_content ≠ [] := by
          cases ns with
          | nil => exact absurd rfl hne
          | cons a l => simp
        rw [if_pos hmapne]
        rw [List.map_cons, List.map_nil, List.flatten_cons, chunkBodies_create]
        rw [(bodies_buffer ns hne hns).1]
        simp [nodeTextsList]

/-- The traversal of a well-behaved, hard-limit-respecting subtree emits,
as bodies, exactly the subtree's content texts, for any hierarchy path. -/
theorem recursive_dfs_bodies (ctx : ChunkerCtx) :
    ∀ n : TreeNode, goodSub n = true → leafFit ctx.cfg n = true →
      ∀ hier, ((recursive_dfs ctx n hier).map chunkBodies).flatten = nodeTexts n := by
  intro n
  induction n using TreeNode.ind' with
  | h i ty ti lv co pg ch ih =>
    intro hg hfit hier
    have hr := render_good _ hg
    rw [recursive_dfs]
    dsimp only
    split
    · rw [if_pos hr.2.2.2]
      rw [List.map_cons, List.map_nil, List.flatten_cons, chunkBodies_create, hr.1]
      simp
    · split
      · rename_i hnotS hemp
        have hch : ch = [] := List.isEmpty_iff.mp hemp
        subst hch
        rw [leafFit_mk, Bool.and_eq_true] at hfit
        have hle : (get_total_tokens (.mk i ty ti lv co pg []) : Int) ≤
            ctx.cfg.hard_limit := by
          have h1 := hfit.1
          rw [if_pos (show ([] : List TreeNode).isEmpty = true from rfl)] at h1
          exact of_decide_eq_true h1
        rw [if_neg (not_lt.mpr hle), if_pos hr.2.2.2]
        rw [List.map_cons, List.map_nil, List.flatten_cons, chunkBodies_create, hr.1]
        simp
      · rename_i hnotS hemp
        obtain ⟨hch, hshape⟩ := goodSub_cases i ty ti lv co pg ch hg
        have hch' := (goodSubList_iff ch).mp hch
        have hfitch := (leafFitList_iff ctx.cfg ch).mp (by
          rw [leafFit_mk, Bool.and_eq_true] at hfit
          exact hfit.2)
        have hB := process_children_bodies ctx
          (hierExtend (.mk i ty ti lv co pg ch) hier) ch
          (fun c hc => ⟨hch' c hc, fun hier' => ih c hc (hch' c hc) (hfitch c hc) hier'⟩)
          [] [] (by intro x hx; cases hx)
        rw [List.map_nil] at hB
        rw [hB]
        rcases hshape with ⟨hty, hco, _⟩ | ⟨hty, hco2, hchnil, hti⟩
        · rw [nodeTexts_mk, hco]
          simp [nodeTextsList]
        · subst hchnil
          simp at hemp

/-- Unpacking a well-behaved root. -/
theorem goodRoot_cases (i ty : Str) (ti : Option Str) (lv : Option Int)
    (co : Str) (pg : List Int) (ch : List TreeNode)
    (h : goodRoot (.mk i ty ti lv co pg ch) = true) :
    ¬ ty = "section".toList ∧ co = [] ∧ goodSubList ch = true := by
  rw [goodRoot] at h
  rw [Bool.and_eq_true, Bool.and_eq_true] at h
  exact ⟨of_decide_eq_true h.1.1, List.isEmpty_iff.mp h.1.2, h.2⟩

/-- A non-section node renders without any heading contribution. -/
theorem collect_content_root (i ty : Str) (ti : Option Str) (lv : Option Int)
    (pg : List Int) (ch : List TreeNode) (hty : ¬ ty = "section".toList) :
    collect_content (.mk i ty ti lv [] pg ch) =
      joinSep sepNN (collect_children ch) := by
  rw [collect_content_mk]
  have hx : (match ti with
      | some t => if ty = "section".toList ∧ t ≠ [] then [hhMark ++ t] else []
      | none => ([] : List Str)) = [] := by
    cases ti with
    | none => rfl
    | some t => exact if_neg (fun hc => hty hc.1)
  rw [hx]
  simp

/-- The traversal of a well-behaved root emits, as bodies, exactly the
tree's content texts. -/
theorem recursive_dfs_bodies_root (ctx : ChunkerCtx) (n : TreeNode)
    (hg : goodRoot n = true) (hfit : leafFit ctx.cfg n = true) (hier : List Str) :
    ((recursive_dfs ctx n hier).map chunkBodies).flatten = nodeTexts n := by
  cases n with
  | mk i ty ti lv co pg ch =>
    obtain ⟨hty, hco, hch⟩ := goodRoot_cases i ty ti lv co pg ch hg
    subst hco
    have hch' := (goodSubList_iff ch).mp hch
    rw [recursive_dfs]
    dsimp only
    cases ch with
    | nil =>
      have hcol : collect_content (.mk i ty ti lv [] pg []) = [] := by
        rw [collect_content_root i ty ti lv pg [] hty]
        rfl
      have hstrip : stripStr (collect_content (.mk i ty ti lv [] pg [])) = [] := by
        rw [hcol]
        rfl
      split
      · rw [if_neg (by rw [hstrip]; exact fun h => h rfl)]
        rfl
      · rw [if_pos (show ([] : List TreeNode).isEmpty = true from rfl)]
        rw [leafFit_mk, Bool.and_eq_true] at hfit
        have hle : (get_total_tokens (.mk i ty ti lv [] pg []) : Int) ≤
            ctx.cfg.hard_limit := by
          have h1 := hfit.1
          rw [if_pos (show ([] : List TreeNode).isEmpty = true from rfl)] at h1
          exact of_decide_eq_true h1
        rw [if_neg (not_lt.mpr hle)]
        rw [if_neg (by rw [hstrip]; exact fun h => h rfl)]
        rfl
    | cons c0 cs0 =>
      have hmap : collect_children (c0 :: cs0) = (c0 :: cs0).map collect_content :=
        collect_children_eq_map _
          (fun c hc => (render_good c (hch' c hc)).2.1)
      have hb := bodies_buffer (c0 :: cs0) (by simp) hch'
      have hcol : collect_content (.mk i ty ti lv [] pg (c0 :: cs0)) =
          joinSep sepNN ((c0 :: cs0).map collect_content) := by
        rw [collect_content_root i ty ti lv pg _ hty, hmap]
      split
      · rw [if_pos (by rw [hcol]; exact hb.2)]
        rw [List.map_cons, List.map_nil, List.flatten_cons, chunkBodies_create]
        rw [hcol, hb.1, nodeTexts_mk]
        simp
      · split
        · rename_i hemp
          simp at hemp
        · have hfitch := (leafFitList_iff ctx.cfg _).mp (by
            rw [leafFit_mk, Bool.and_eq_true] at hfit
            exact hfit.2)
          have hB := process_children_bodies ctx
            (hierExtend (.mk i ty ti lv [] pg (c0 :: cs0)) hier) (c0 :: cs0)
            (fun c hc => ⟨hch' c hc,
              fun hier' => recursive_dfs_bodies ctx c (hch' c hc) (hfitch c hc) hier'⟩)
            [] [] (by intro x hx; cases hx)
          rw [List.map_nil] at hB
          rw [hB, nodeTexts_mk]
          simp [nodeTextsList]

/-- Renumbering chunk indices neither reorders chunks nor changes their
contents, so the bodies are those of the raw traversal. -/
theorem chunk_tree_bodies_eq (ctx : ChunkerCtx) (tree : TreeNode) :
    ((chunk_tree ctx tree).map chunkBodies).flatten
      = ((recursive_dfs ctx tree []).map chunkBodies).flatten := by
  unfold chunk_tree
  dsimp only
  rw [List.map_map]
  refine congrArg List.flatten ?_
  have h2 : List.map chunkBodies (recursive_dfs ctx tree []) =
      List.map (chunkBodies ∘ Prod.snd) (recursive_dfs ctx tree []).enum := by
    rw [← List.map_map, List.enum_map_snd]
  rw [h2]
  exact List.map_congr_left (fun a _ => rfl)

/-- Introduce a boolean conjunction. -/
theorem band_intro {a b : Bool} (ha : a = true) (hb : b = true) :
    (a && b) = true := by
  rw [ha, hb]
  rfl

/-- Introduce a boolean disjunction on the left. -/
theorem bor_intro_left {a b : Bool} (ha : a = true) : (a || b) = true := by
  rw [ha]
  rfl

/-- Introduce a boolean disjunction on the right. -/
theorem bor_intro_right {a b : Bool} (hb : b = true) : (a || b) = true := by
  rw [hb]
  simp

/-- `goodSubList` distributes over append. -/
theorem goodSubList_append : ∀ a b : List TreeNode,
    goodSubList (a ++ b) = (goodSubList a && goodSubList b)
  | [], b => by simp [goodSubList]
  | c :: cs, b => by
    rw [List.cons_append, goodSubList, goodSubList, goodSubList_append cs b,
      Bool.and_assoc]

/-- Unfolding of `goodSub` at a constructor. -/
theorem goodSub_mk (i ty : Str) (ti : Option Str) (lv : Option Int)
    (co : Str) (pg : List Int) (ch : List TreeNode) :
    goodSub (.mk i ty ti lv co pg ch) =
      (goodSubList ch &&
        ((decide (ty = "section".toList) && co.isEmpty &&
            (match ti with | some t => !t.isEmpty && goodTitle t | none => false)) ||
         (decide (ty = "content".toList) && goodText co && ch.isEmpty &&
            (match ti with | some _ => false | none => true)))) := rfl

/-- Closing a well-behaved section frame yields a well-behaved subtree
node. -/
theorem goodSub_close (f : Frame) (h : goodFrameB f = true) :
    goodSub f.close = true := by
  rw [goodFrameB, Bool.and_eq_true, Bool.and_eq_true, Bool.and_eq_true] at h
  obtain ⟨⟨⟨h1, h2⟩, h3⟩, h4⟩ := h
  rw [Frame.close, goodSub_mk]
  exact band_intro h4 (bor_intro_left (band_intro (band_intro h1 h2) h3))

/-- A content node made from a well-behaved content-routed block is a
well-behaved subtree node. -/
theorem goodSub_contentNode (b : Block) (h : goodText b.text = true) :
    goodSub (contentNode b) = true := by
  rw [contentNode, goodSub_mk]
  exact band_intro rfl (bor_intro_right
    (band_intro (band_intro (band_intro (by decide) h) rfl) rfl))

/-- `Frame.addChild` only extends the children list. -/
theorem addChild_fields (f : Frame) (c : TreeNode) :
    (f.addChild c).type = f.type ∧ (f.addChild c).title = f.title ∧
    (f.addChild c).content = f.content ∧
    (f.addChild c).children = f.children ++ [c] :=
  ⟨rfl, rfl, rfl, rfl⟩

/-- Attaching a well-behaved node preserves a frame's well-behavedness. -/
theorem goodFrameB_addChild (f : Frame) (c : TreeNode)
    (hf : goodFrameB f = true) (hc : goodSub c = true) :
    goodFrameB (f.addChild c) = true := by
  rw [goodFrameB] at hf ⊢
  rw [Bool.and_eq_true] at hf ⊢
  refine ⟨hf.1, ?_⟩
  show goodSubList (f.children ++ [c]) = true
  rw [goodSubList_append, hf.2, Bool.true_and]
  rw [goodSubList, hc, goodSubList]
  rfl

/-- Attaching a well-behaved node preserves the bottom frame's
well-behavedness. -/
theorem goodBotB_addChild (f : Frame) (c : TreeNode)
    (hf : goodBotB f = true) (hc : goodSub c = true) :
    goodBotB (f.addChild c) = true := by
  rw [goodBotB] at hf ⊢
  rw [Bool.and_eq_true] at hf ⊢
  refine ⟨hf.1, ?_⟩
  show goodSubList (f.children ++ [c]) = true
  rw [goodSubList_append, hf.2, Bool.true_and]
  rw [goodSubList, hc, goodSubList]
  rfl

/-- A closed frame's texts are the frame's texts. -/
theorem nodeTexts_close (f : Frame) : nodeTexts f.close = frameTexts f := rfl

/-- Attaching a child appends its texts to the frame's texts. -/
theorem frameTexts_addChild (f : Frame) (c : TreeNode) :
    frameTexts (f.addChild c) = frameTexts f ++ nodeTexts c := by
  rw [frameTexts, frameTexts]
  rw [(addChild_fields f c).2.2.1, (addChild_fields f c).2.2.2]
  rw [nodeTextsList_append, nodeTextsList_cons]
  simp [nodeTextsList]

/-- Unfolding of `stackTexts` at a cons. -/
theorem stackTexts_cons (f : Frame) (rest : List Frame) :
    stackTexts (f :: rest) = stackTexts rest ++ frameTexts f := rfl

/-- The pop loop preserves well-behavedness and the stack's texts. -/
theorem popWhile_good (L : Int) : ∀ (rest : List Frame) (f : Frame),
    stackGood (f :: rest) →
    ∃ f' rest', popWhile L f rest = f' :: rest' ∧ stackGood (f' :: rest') ∧
      stackTexts (f' :: rest') = stackTexts (f :: rest) := by
  intro rest
  induction rest with
  | nil =>
    intro f hf
    exact ⟨f, [], rfl, hf, rfl⟩
  | cons g rest' ih =>
    intro f hf
    rw [popWhile]
    split
    · obtain ⟨hf1, hg⟩ := hf
      have hclose : goodSub f.close = true := goodSub_close f hf1
      have hg' : stackGood (g.addChild f.close :: rest') := by
        cases rest' with
        | nil => exact goodBotB_addChild g _ hg hclose
        | cons x xs => exact ⟨goodFrameB_addChild g _ hg.1 hclose, hg.2⟩
      obtain ⟨f', r', heq, hsg, htx⟩ := ih (g.addChild f.close) hg'
      refine ⟨f', r', heq, hsg, ?_⟩
      rw [htx, stackTexts_cons, frameTexts_addChild, nodeTexts_close,
        stackTexts_cons, stackTexts_cons]
      rw [List.append_assoc]
    · exact ⟨f, g :: rest', rfl, hf, rfl⟩

/-- One builder step preserves well-behavedness and appends exactly the
content-routed block's text to the stack's texts. -/
theorem insertBlock_good (st : List Frame) (b : Block) (hb : blockGood b = true)
    (hst : stackGood st) :
    stackGood (insertBlock st b) ∧
    stackTexts (insertBlock st b) =
      stackTexts st ++ (if contentRouted b = true then [b.text] else []) := by
  cases st with
  | nil => exact absurd hst id
  | cons f rest =>
    rw [insertBlock]
    split
    · rename_i hhdr
      have hcr : contentRouted b = false := by
        rw [contentRouted, decide_eq_true hhdr]
        rfl
      rw [blockGood, if_pos hhdr, Bool.and_eq_true, Bool.not_eq_true',
        List.isEmpty_eq_false] at hb
      obtain ⟨f', r', heq, hsg, htx⟩ := popWhile_good (levelVal b.level) rest f hst
      rw [heq]
      have hsf : goodFrameB (sectionFrame b) = true := by
        rw [goodFrameB, sectionFrame]
        refine band_intro (band_intro (band_intro (decide_eq_true rfl) rfl) ?_) rfl
        show (!b.text.isEmpty && goodTitle b.text) = true
        rw [Bool.and_eq_true, Bool.not_eq_true', List.isEmpty_eq_false]
        exact hb
      constructor
      · exact ⟨hsf, hsg⟩
      · rw [stackTexts_cons, htx, hcr]
        have hft : frameTexts (sectionFrame b) = [] := rfl
        rw [hft]
        simp
    · rename_i hhdr
      have hcr : contentRouted b = true := by
        rw [contentRouted, decide_eq_false hhdr]
        rfl
      rw [blockGood, if_neg hhdr] at hb
      have hcn : goodSub (contentNode b) = true := goodSub_contentNode b hb
      have htxne : b.text ≠ [] :=
        ne_nil_of_stripStr_ne_nil ((goodText_iff b.text).mp hb).2.2.1
      have hntc : nodeTexts (contentNode b) = [b.text] := by
        rw [contentNode, nodeTexts_mk, if_pos htxne]
        simp [nodeTextsList]
      constructor
      · cases rest with
        | nil => exact goodBotB_addChild f _ hst hcn
        | cons g t => exact ⟨goodFrameB_addChild f _ hst.1 hcn, hst.2⟩
      · rw [stackTexts_cons, stackTexts_cons, frameTexts_addChild, hntc, hcr]
        simp

/-- The whole block loop preserves well-behavedness and collects exactly
the content-routed texts in order. -/
theorem foldl_insertBlock_good : ∀ (blocks : List Block),
    (∀ b ∈ blocks, blockGood b = true) → ∀ st, stackGood st →
    (stackGood (blocks.foldl insertBlock st) ∧
     stackTexts (blocks.foldl insertBlock st) =
       stackTexts st ++ (blocks.filter contentRouted).map Block.text)
  | [], _, st, hst => ⟨hst, by simp⟩
  | b :: bs, hb, st, hst => by
    rw [List.foldl_cons]
    obtain ⟨h1, h2⟩ := insertBlock_good st b (hb b (List.mem_cons_self b bs)) hst
    obtain ⟨h3, h4⟩ := foldl_insertBlock_good bs
      (fun x hx => hb x (List.mem_cons_of_mem b hx)) (insertBlock st b) h1
    refine ⟨h3, ?_⟩
    rw [h4, h2, List.filter_cons]
    by_cases hcr : contentRouted b = true
    · rw [if_pos hcr, if_pos hcr, List.map_cons]
      simp
    · rw [if_neg hcr, if_neg hcr]
      simp

/-- Collapsing a well-behaved stack yields a well-behaved root carrying the
stack's texts. -/
theorem collapse_good : ∀ (rest : List Frame) (f : Frame),
    stackGood (f :: rest) →
    (goodRoot (collapse f rest) = true ∧
     nodeTexts (collapse f rest) = stackTexts (f :: rest)) := by
  intro rest
  induction rest with
  | nil =>
    intro f hf
    rw [collapse]
    have hf' : goodBotB f = true := hf
    rw [goodBotB, Bool.and_eq_true, Bool.and_eq_true] at hf'
    constructor
    · rw [Frame.close, goodRoot]
      exact band_intro (band_intro (decide_eq_true (of_decide_eq_true hf'.1.1)) hf'.1.2) hf'.2
    · rw [nodeTexts_close, stackTexts_cons]
      rfl
  | cons g t ih =>
    intro f hf
    rw [collapse]
    obtain ⟨hf1, hg⟩ := hf
    have hclose : goodSub f.close = true := goodSub_close f hf1
    have hg' : stackGood (g.addChild f.close :: t) := by
      cases t with
      | nil => exact goodBotB_addChild g _ hg hclose
      | cons x xs => exact ⟨goodFrameB_addChild g _ hg.1 hclose, hg.2⟩
    obtain ⟨h1, h2⟩ := ih (g.addChild f.close) hg'
    refine ⟨h1, ?_⟩
    rw [h2, stackTexts_cons, frameTexts_addChild, nodeTexts_close,
      stackTexts_cons, stackTexts_cons, List.append_assoc]

/-- C1 (amended): for every block sequence whose content-routed blocks
carry well-behaved texts (non-blank, free of the `"\n\n"` separator, not
ending in a newline, not shaped like a `"## "` heading line), whose
header-routed blocks carry non-empty titles free of the separator and of a
trailing newline, and whose built tree has no childless node larger than
`hard_limit` (so the lossy stripping of the forced-split paths is never
taken), concatenating the non-heading portions of all emitted chunks'
contents — each chunk's content split at blank lines with the injected
heading lines removed — reproduces every content block's text exactly
once, in the original block order, for every token counter and every
segmenter. -/
theorem claim_C1_amended (ctx : ChunkerCtx) (blocks : List Block)
    (hb : ∀ b ∈ blocks, blockGood b = true)
    (hfit : leafFit ctx.cfg (build_tree blocks) = true) :
    ((chunk_tree ctx (build_tree blocks)).map chunkBodies).flatten
      = (blocks.filter contentRouted).map Block.text := by
  have h0 : stackGood [rootFrame] := by
    show goodBotB rootFrame = true
    decide
  obtain ⟨hsg, hst⟩ := foldl_insertBlock_good blocks hb [rootFrame] h0
  rw [chunk_tree_bodies_eq]
  cases hfold : blocks.foldl insertBlock [rootFrame] with
  | nil =>
    rw [hfold] at hsg
    exact absurd hsg id
  | cons f rest =>
    rw [hfold] at hsg hst
    have hbt : build_tree blocks = collapse f rest := by
      rw [build_tree, hfold]
    obtain ⟨hgr, hnt⟩ := collapse_good rest f hsg
    rw [hbt] at hfit ⊢
    rw [recursive_dfs_bodies_root ctx _ hgr hfit [], hnt, hst]
    rw [show stackTexts [rootFrame] = [] from rfl]
    simp

/-- C1 witness: a two-section document whose bodies round-trip exactly,
with a configuration that exercises the sibling-merge machinery. -/
theorem claim_C1_amended_witness :
    ((chunk_tree (exCtx 1 20) (build_tree
        [hBlock "A" 1 1, cBlock "xxxxxxxxxxxx" 1,
         hBlock "A.1" 2 2, cBlock "yyyyyyyyyyyy" 2])).map chunkBodies).flatten
      = ["xxxxxxxxxxxx".toList, "yyyyyyyyyyyy".toList] :=
  Eq.trans
    (claim_C1_amended (exCtx 1 20)
      [hBlock "A" 1 1, cBlock "xxxxxxxxxxxx" 1,
       hBlock "A.1" 2 2, cBlock "yyyyyyyyyyyy" 2]
      (by decide) (by decide))
    (by decide)

/-- C1 counterexample: a single whitespace-only content block is dropped
entirely — `chunk_tree` emits nothing — so the claim as universally stated
(every content block's text reproduced exactly once) is false. -/
theorem claim_C1_counterexample :
    ((chunk_tree (exCtx 800 2000) (build_tree [cBlock "   " 1])).map
        chunkBodies).flatten = [] ∧
    ([cBlock "   " 1].filter contentRouted).map Block.text = ["   ".toList] := by
  decide

end Paper2Chunk
